import Mathlib

/-!
Verification of the beads planning engine: a shallow embedding of the
readiness classifier, priority ranker and multi-project aggregator of
docs/system-prompts/planning-summary.py, and of the orphan, cycle and
staleness checks of docs/system-prompts/planning-doctor.py, together
with proofs of the specified properties.

Conventions of the embedding:
- JSON dictionaries become structures; a field read with dict.get(k)
  becomes an Option field, and .get(k, d) becomes Option.getD.
- Python string comparison is lexicographic on code points; it is
  embedded as a lexicographic Bool comparison on the lists of code
  points of the strings.
- Python int() truncates toward zero, embedded as Int.tdiv.
- Timestamp parsing (datetime.fromisoformat) and the current clock are
  I/O-dependent; they enter the embedding as parameters: a parse
  function String -> Option Int (seconds; none models ValueError) and
  an integer now.
- The recursive DFS of the cycle checker is embedded with a fuel
  argument; the chosen fuel is proved sufficient, so fuel exhaustion
  never occurs on any input.
-/

namespace PlanningSummary

/-- Python scalar stored in the priority field: the JSON payload carries
either an integer or a string there (any other shape behaves like an
unconvertible string and falls to the default). -/
inductive PyValue where
  | int (n : Int) : PyValue
  | str (s : String) : PyValue
deriving DecidableEq

/-- One dependency edge as stored on a bead: dep.get('type') and
dep.get('depends_on_id') from planning-summary.py. -/
structure Dependency where
  type : Option String
  depends_on_id : Option String
deriving DecidableEq

/-- One work item (bead) as consumed by planning-summary.py. -/
structure Bead where
  id : String
  title : String
  status : Option String
  labels : List String
  dependencies : List Dependency
  priority : Option PyValue
deriving DecidableEq

/-- Effective state assigned by BeadsSummary.categorize_beads: the four
buckets self.closed, self.in_progress, self.ready, self.blocked. -/
inductive EffState where
  | closed : EffState
  | in_progress : EffState
  | ready : EffState
  | blocked : EffState
deriving DecidableEq

/-- Lookup in status_map = a dict built by a comprehension over
all_beads keyed on bead id (later entries overwrite earlier ones,
hence the reversed find), defaulting to the string unknown for a
missing key, exactly as status_map.get(dep_id, 'unknown'). A dep_id
of none (missing depends_on_id) is never a key. -/
def status_map_get (beads : List Bead) (dep_id : Option String) : String :=
  match dep_id with
  | none => "unknown"
  | some k =>
    match beads.reverse.find? (fun b => b.id == k) with
    | some b => b.status.getD "unknown"
    | none => "unknown"

/-- The blockers list computed by the dependency loop of
categorize_beads: dependencies whose type is not parent-child and whose
target status (via status_map_get) is not closed contribute their
depends_on_id. -/
def unresolved_blockers (beads : List Bead) (bead : Bead) : List (Option String) :=
  bead.dependencies.filterMap (fun dep =>
    if dep.type == some "parent-child" then none
    else if status_map_get beads dep.depends_on_id ≠ "closed" then some dep.depends_on_id
    else none)

/-- The branch structure of the loop body of categorize_beads, as a
function from one bead (in the context of the full list, which fixes
status_map) to the bucket it is appended to: closed; in-progress or
in_progress; ready; the open, not-ready or unknown statuses go through
the blocker check; every other status (including an explicit blocked)
falls to the final else branch, which appends to self.ready. -/
def classify_bead (beads : List Bead) (bead : Bead) : EffState :=
  let status := bead.status.getD "unknown"
  if status = "closed" then .closed
  else if status = "in-progress" ∨ status = "in_progress" then .in_progress
  else if status = "ready" then .ready
  else if status = "not-ready" ∨ status = "open" ∨ status = "unknown" then
    if (unresolved_blockers beads bead).isEmpty then .ready else .blocked
  else .ready

/-- The five accumulator lists of a BeadsSummary after categorization. -/
structure Categorized where
  closed : List Bead
  in_progress : List Bead
  ready : List Bead
  blocked : List Bead
  failures : List Bead
deriving DecidableEq

/-- One iteration of the categorize_beads loop: append the bead to the
bucket selected by classify_bead, and additionally to failures when the
failure label is present. -/
def categorize_step (beads : List Bead) (acc : Categorized) (bead : Bead) : Categorized :=
  let acc1 :=
    match classify_bead beads bead with
    | .closed => { acc with closed := acc.closed ++ [bead] }
    | .in_progress => { acc with in_progress := acc.in_progress ++ [bead] }
    | .ready => { acc with ready := acc.ready ++ [bead] }
    | .blocked => { acc with blocked := acc.blocked ++ [bead] }
  if "failure" ∈ bead.labels then { acc1 with failures := acc1.failures ++ [bead] } else acc1

/-- BeadsSummary.categorize_beads: fold the loop body over all beads,
starting from empty buckets. -/
def categorize_beads (beads : List Bead) : Categorized :=
  beads.foldl (categorize_step beads) ⟨[], [], [], [], []⟩

/-- Truth of the proposition that a dependency participates in blocking
per categorize_beads: every dependency whose type is not parent-child. -/
def is_blocking_dep (dep : Dependency) : Prop := dep.type ≠ some "parent-child"

instance (dep : Dependency) : Decidable (is_blocking_dep dep) :=
  inferInstanceAs (Decidable (dep.type ≠ some "parent-child"))

/-- Decimal reading of a nonempty all-digit character sequence, none
otherwise. -/
def py_digits_to_nat (cs : List Char) : Option Nat :=
  if cs ≠ [] ∧ cs.all Char.isDigit then
    some (cs.foldl (fun acc c => acc * 10 + (c.toNat - 48)) 0)
  else none

/-- Python int(s) on a string: strip surrounding whitespace, read an
optional sign and a nonempty digit run; returns none where Python
raises ValueError. -/
def py_int_of_string (s : String) : Option Int :=
  let cs := ((s.data.dropWhile Char.isWhitespace).reverse.dropWhile Char.isWhitespace).reverse
  match cs with
  | '-' :: rest => (py_digits_to_nat rest).map (fun n => -(n : Int))
  | '+' :: rest => (py_digits_to_nat rest).map (fun n => (n : Int))
  | _ => (py_digits_to_nat cs).map (fun n => (n : Int))

/-- The priority integer computed by find_next_bead for one bead:
bead.get('priority', 4); a non-int value is passed through int(), and 4
is used when that conversion raises. -/
def effective_priority (bead : Bead) : Int :=
  match bead.priority with
  | none => 4
  | some (.int n) => n
  | some (.str s) => (py_int_of_string s).getD 4

/-- One entry of the results list built by process_all_projects and
consumed by find_next_bead. -/
structure ProjectResult where
  name : String
  path : String
  summary : Option Categorized
  error : Option String
deriving DecidableEq

/-- The sort key tuple attached to a candidate:
(priority, project_tier, project_path, bead_id). -/
def SortKey : Type := Int × Nat × String × String

instance : DecidableEq SortKey := by
  unfold SortKey; infer_instance

/-- One candidate dict built by find_next_bead. -/
structure Candidate where
  bead : Bead
  project_name : String
  project_path : String
  project_tier : Nat
  sort_key : SortKey
deriving DecidableEq

/-- The candidate list built by find_next_bead before sorting: for every
project whose summary is present, one candidate per bead of its ready
bucket, with tier 0 for the root path and 1 otherwise. -/
def candidates_of (projects : List ProjectResult) : List Candidate :=
  projects.flatMap (fun p =>
    match p.summary with
    | none => []
    | some s =>
      s.ready.map (fun b =>
        let tier : Nat := if p.path = "." then 0 else 1
        { bead := b, project_name := p.name, project_path := p.path,
          project_tier := tier,
          sort_key := (effective_priority b, tier, p.path, b.id) }))

/-- Code points of a string, the sequence Python compares
lexicographically when ordering strings. -/
def str_key (s : String) : List Nat := s.data.map Char.toNat

/-- Strict lexicographic order on code point lists. -/
def natlist_lt : List Nat → List Nat → Bool
  | [], [] => false
  | [], _ :: _ => true
  | _ :: _, [] => false
  | a :: as, b :: bs => a < b || (a == b && natlist_lt as bs)

/-- Python tuple comparison of two sort keys: lexicographic over the
four components, strings compared by code points. -/
def key_le (k1 k2 : SortKey) : Bool :=
  if k1.1 < k2.1 then true
  else if k2.1 < k1.1 then false
  else if k1.2.1 < k2.2.1 then true
  else if k2.2.1 < k1.2.1 then false
  else if natlist_lt (str_key k1.2.2.1) (str_key k2.2.2.1) then true
  else if natlist_lt (str_key k2.2.2.1) (str_key k1.2.2.1) then false
  else if natlist_lt (str_key k1.2.2.2) (str_key k2.2.2.2) then true
  else if natlist_lt (str_key k2.2.2.2) (str_key k1.2.2.2) then false
  else true

/-- Comparison used by candidates.sort(key=lambda c: c['_sort_key']). -/
def cand_le (c1 c2 : Candidate) : Bool := key_le c1.sort_key c2.sort_key

/-- find_next_bead: build the candidates and sort them ascending by the
stored sort key (list.sort is a stable ascending sort; so is mergeSort,
and a stable sort by a fixed total preorder is unique, so the embedding
is exact). -/
def find_next_bead (projects : List ProjectResult) : List Candidate :=
  (candidates_of projects).mergeSort cand_le

/-- Observable content of a sort key under key_le: key_le both ways
identifies exactly the keys with equal priority, tier and code point
sequences. -/
def enc_key (k : SortKey) : Int × Nat × List Nat × List Nat :=
  (k.1, k.2.1, str_key k.2.2.1, str_key k.2.2.2)

/-- Strict lexicographic order on sort keys at the Prop level, used to
reason about key_le. -/
def kLT (k1 k2 : SortKey) : Prop :=
  k1.1 < k2.1
  ∨ (k1.1 = k2.1 ∧ (k1.2.1 < k2.2.1
    ∨ (k1.2.1 = k2.2.1
      ∧ (natlist_lt (str_key k1.2.2.1) (str_key k2.2.2.1) = true
        ∨ (str_key k1.2.2.1 = str_key k2.2.2.1
          ∧ natlist_lt (str_key k1.2.2.2) (str_key k2.2.2.2) = true)))))

/-- The head of the ranking, the single recommended next bead printed by
print_next_bead. -/
def recommended_next (projects : List ProjectResult) : Option Candidate :=
  (find_next_bead projects).head?

/-- Priority as the words of the spec sentence describe it (defaulting
to 4 if absent or non-integer); modelled from the spec for comparison
with effective_priority, which converts integer-valued strings. -/
def claim_default_priority (bead : Bead) : Int :=
  match bead.priority with
  | some (.int n) => n
  | _ => 4

/-- Sort key as the claim describes it, using claim_default_priority;
modelled from the spec for the refinement comparison of claim C6. -/
def claim_key (c : Candidate) : SortKey :=
  (claim_default_priority c.bead, c.project_tier, c.project_path, c.bead.id)

/-- Outcome of the load step of one project inside process_all_projects:
load_beads() returning True with a bead list, load_beads() returning
False, or an exception raised during load or categorize (the except
branch of the loop); load and categorize touch the file system and
subprocesses, so the outcome is an input of the embedding. -/
inductive LoadOutcome where
  | ok (beads : List Bead) : LoadOutcome
  | load_failed : LoadOutcome
  | raised (msg : String) : LoadOutcome
deriving DecidableEq

/-- One source handed to process_all_projects: the root project or one
discovered submodule, together with the outcome of its load step. -/
structure SourceInput where
  name : String
  path : String
  outcome : LoadOutcome
deriving DecidableEq

/-- The body of process_all_projects for a single source: a populated
summary on success, an isolated error entry otherwise. -/
def process_one (src : SourceInput) : ProjectResult :=
  match src.outcome with
  | .ok beads => ⟨src.name, src.path, some (categorize_beads beads), none⟩
  | .load_failed => ⟨src.name, src.path, none, some "Failed to load beads"⟩
  | .raised msg => ⟨src.name, src.path, none, some msg⟩

/-- process_all_projects: the root project is processed first, then each
submodule in order, each appending exactly one results entry. -/
def process_all_projects (root : SourceInput) (submodules : List SourceInput) :
    List ProjectResult :=
  submodules.foldl (fun results sub => results ++ [process_one sub]) [process_one root]

end PlanningSummary

namespace PlanningDoctor

/-- One work item as consumed by planning-doctor.py: this script reads
the blocked_by list of blocker ids (the blocking edges of the doctor
format). -/
structure DBead where
  id : String
  title : String
  status : Option String
  claimed_at : Option String
  assignee : Option String
  blocked_by : List String
deriving DecidableEq

/-- The id set built by check_orphaned_beads. -/
def bead_ids (beads : List DBead) : List String := beads.map (fun b => b.id)

/-- One orphaned-dependency issue dict appended by check_orphaned_beads. -/
structure OrphanIssue where
  bead_id : String
  bead_title : String
  blocker_id : String
deriving DecidableEq

/-- BeadsDoctor.check_orphaned_beads: for every bead and every entry of
its blocked_by list whose id is not among the bead ids, append one
orphaned issue (the auto-fix branch only shells out and never changes
the issues list). -/
def check_orphaned_beads (beads : List DBead) : List OrphanIssue :=
  beads.flatMap (fun b =>
    (b.blocked_by.filter (fun t => !(bead_ids beads).contains t)).map
      (fun t => ⟨b.id, b.title, t⟩))

/-- One stale-claim warning dict appended by check_stale_in_progress. -/
structure StaleWarning where
  bead_id : String
  bead_title : String
  age_hours : Int
  assignee : String
deriving DecidableEq

/-- BeadsDoctor.check_stale_in_progress with the I/O-dependent pieces as
parameters: parse_ts embeds datetime.fromisoformat (none models a
ValueError, silently skipped), now the current clock in seconds. A bead
contributes one warning exactly when its status is the string
in-progress, claimed_at is present and truthy (a present empty string
is falsy in Python and skipped), it parses, and the age strictly
exceeds the threshold (hours, converted to seconds). -/
def check_stale_in_progress (parse_ts : String → Option Int) (now : Int)
    (stale_threshold_hours : Int) (beads : List DBead) : List StaleWarning :=
  beads.filterMap (fun b =>
    if b.status == some "in-progress" then
      match b.claimed_at with
      | some s =>
        if s = "" then none
        else
          match parse_ts s with
          | some t =>
            if now - t > stale_threshold_hours * 3600 then
              some ⟨b.id, b.title, (now - t).tdiv 3600, b.assignee.getD "unknown"⟩
            else none
          | none => none
      | none => none
    else none)

/-- The blockers the DFS of check_circular_dependencies recurses into
from a node: the blocked_by list of the first bead with that id (next
over a generator), empty for a missing node. -/
def blockers_of (beads : List DBead) (bead_id : String) : List String :=
  match beads.find? (fun b => b.id == bead_id) with
  | some b => b.blocked_by
  | none => []

/-- The mutable state of check_circular_dependencies: the visited and
recursion_stack sets (kept as duplicate-free lists) and the cycle
entries appended to self.issues. -/
structure DfsState where
  visited : List String
  rec_stack : List String
  cycles : List (List String)
deriving DecidableEq

/-- Result of one has_cycle call: a normal return, the ValueError that
path.index raises when the node is on the recursion stack but not on
the current path, or fuel exhaustion (proved unreachable). -/
inductive DfsResult where
  | ok (found : Bool) (st : DfsState) : DfsResult
  | valueError (st : DfsState) : DfsResult
  | fuelOut (st : DfsState) : DfsResult
deriving DecidableEq

/-- The loop of has_cycle over the blockers of the current bead:
recurse into each in order, returning True as soon as one recursion
does; errors propagate. -/
def run_blockers (f : String → List String → DfsState → DfsResult) :
    List String → List String → DfsState → DfsResult
  | [], _, st => .ok false st
  | t :: ts, path, st =>
    match f t path st with
    | .ok true st1 => .ok true st1
    | .ok false st1 => run_blockers f ts path st1
    | r => r

/-- The recursive has_cycle of check_circular_dependencies. On a node
already on the recursion stack, path.index materializes the cycle as
path from the first occurrence plus the repeated node (raising
ValueError when the node is absent from path); a visited node returns
False; otherwise the node joins visited and the stack, the blockers are
explored, and only a False return removes the node from the stack (the
early True return leaves it, exactly as in the source). -/
def has_cycle (beads : List DBead) : Nat → String → List String → DfsState → DfsResult
  | 0, _, _, st => .fuelOut st
  | fuel + 1, bead_id, path, st =>
    if bead_id ∈ st.rec_stack then
      if bead_id ∈ path then
        let cycle := path.drop (path.indexOf bead_id) ++ [bead_id]
        .ok true { st with cycles := st.cycles ++ [cycle] }
      else .valueError st
    else if bead_id ∈ st.visited then .ok false st
    else
      match run_blockers (has_cycle beads fuel) (blockers_of beads bead_id)
          (path ++ [bead_id])
          { st with visited := st.visited ++ [bead_id],
                    rec_stack := st.rec_stack ++ [bead_id] } with
      | .ok true st2 => .ok true st2
      | .ok false st2 => .ok false { st2 with rec_stack := st2.rec_stack.erase bead_id }
      | r => r

/-- Result of the whole check: the count of roots that found a cycle
(the return value of check_circular_dependencies) and the final state,
or the propagated ValueError. -/
inductive CheckResult where
  | done (count : Nat) (st : DfsState) : CheckResult
  | valueError (st : DfsState) : CheckResult
  | fuelOut (st : DfsState) : CheckResult
deriving DecidableEq

/-- The top loop of check_circular_dependencies: each bead is a DFS root
if not yet visited; a True return increments the circular count. -/
def check_circular_go (beads : List DBead) (fuel : Nat) :
    List DBead → Nat → DfsState → CheckResult
  | [], count, st => .done count st
  | b :: bs, count, st =>
    if b.id ∈ st.visited then check_circular_go beads fuel bs count st
    else
      match has_cycle beads fuel b.id [] st with
      | .ok true st1 => check_circular_go beads fuel bs (count + 1) st1
      | .ok false st1 => check_circular_go beads fuel bs count st1
      | .valueError st1 => .valueError st1
      | .fuelOut st1 => .fuelOut st1

/-- Every id the traversal can ever be called on: bead ids and blocker
ids. -/
def all_ids (beads : List DBead) : List String :=
  beads.flatMap (fun b => b.id :: b.blocked_by)

/-- BeadsDoctor.check_circular_dependencies, with fuel exceeding the
number of ids so that exhaustion is impossible (proved below). -/
def check_circular_dependencies (beads : List DBead) : CheckResult :=
  check_circular_go beads ((all_ids beads).length + 1) beads 0 ⟨[], [], []⟩

/-- The cycles recorded in a check result (the issues entries of type
circular). -/
def cycles_of : CheckResult → List (List String)
  | .done _ st => st.cycles
  | .valueError st => st.cycles
  | .fuelOut st => st.cycles

/-- The blocking-edge relation of the doctor graph: u depends on v. -/
def edge (beads : List DBead) (u v : String) : Prop := v ∈ blockers_of beads u

instance (beads : List DBead) (u v : String) : Decidable (edge beads u v) :=
  inferInstanceAs (Decidable (v ∈ blockers_of beads u))

/-- A node sequence that, walked edge-by-edge along blocking edges,
returns to its starting node: at least one edge, consecutive entries
joined by edges, equal first and last entries. -/
def ClosedWalk (beads : List DBead) (c : List String) : Prop :=
  2 ≤ c.length ∧ List.Chain' (edge beads) c ∧ c.head? = c.getLast?

instance (beads : List DBead) (c : List String) : Decidable (ClosedWalk beads c) :=
  inferInstanceAs
    (Decidable (2 ≤ c.length ∧ List.Chain' (edge beads) c ∧ c.head? = c.getLast?))

/-- The input blocking graph contains a cycle: some closed walk exists. -/
def HasCycle (beads : List DBead) : Prop := ∃ c, ClosedWalk beads c

/-- The state carried by a DFS result. -/
def state_of : DfsResult → DfsState
  | .ok _ st => st
  | .valueError st => st
  | .fuelOut st => st

/-- The state carried by a whole-check result. -/
def go_state_of : CheckResult → DfsState
  | .done _ st => st
  | .valueError st => st
  | .fuelOut st => st

/-- A node is black (fully explored) in a DFS state: visited and no
longer on the recursion stack. -/
def black (st : DfsState) (x : String) : Prop :=
  x ∈ st.visited ∧ x ∉ st.rec_stack

/-- Structural well-formedness of the DFS state: the recursion stack is
a duplicate-free subset of the visited set. -/
def GoodSt (st : DfsState) : Prop :=
  (∀ x ∈ st.rec_stack, x ∈ st.visited) ∧ st.rec_stack.Nodup

/-- Growth ordering between DFS states: the visited set grows, recorded
cycles are only appended, and black nodes stay black. -/
def StateLe (st st' : DfsState) : Prop :=
  (∀ x ∈ st.visited, x ∈ st'.visited)
  ∧ (∃ new, st'.cycles = st.cycles ++ new)
  ∧ (∀ x, black st x → black st' x)

/-- Every blocking edge out of a black node leads to a black node. -/
def BlackClosed (beads : List DBead) (st : DfsState) : Prop :=
  ∀ u v, black st u → edge beads u v → black st v

/-- No closed walk runs entirely through black nodes. -/
def NoBlackCycle (beads : List DBead) (st : DfsState) : Prop :=
  ¬ ∃ c, ClosedWalk beads c ∧ ∀ x ∈ c, black st x

/-- Every recorded cycle really is a closed walk of the blocking graph. -/
def sound_cycles (beads : List DBead) (st : DfsState) : Prop :=
  ∀ c ∈ st.cycles, ClosedWalk beads c

/-- Number of ids of the graph that the DFS has not visited yet, the
measure showing the chosen fuel suffices. -/
def unvisited_count (beads : List DBead) (st : DfsState) : Nat :=
  ((all_ids beads).dedup.filter (fun x => decide (x ∉ st.visited))).length

end PlanningDoctor

namespace Examples

open PlanningSummary PlanningDoctor

/-- Closed bead of the sequential-chain scenario. -/
def p1 : Bead := ⟨"P1", "phase one", some "closed", [], [], none⟩

/-- Open bead blocked on p1 in the sequential-chain scenario. -/
def p2 : Bead := ⟨"P2", "phase two", some "open", [], [⟨some "blocking", some "P1"⟩], none⟩

/-- Open bead blocked on p2 in the sequential-chain scenario. -/
def p3 : Bead := ⟨"P3", "phase three", some "open", [], [⟨some "blocking", some "P2"⟩], none⟩

/-- Source collection of the sequential-chain scenario. -/
def chain_beads : List Bead := [p1, p2, p3]

/-- Item whose only blocking dependency targets an id absent from its
source. -/
def orphan_x : Bead := ⟨"X", "orphan holder", some "open", [], [⟨some "blocking", some "missing-1"⟩], none⟩

/-- Item whose stored status is explicitly the string blocked. -/
def explicit_blocked : Bead := ⟨"B1", "explicitly blocked", some "blocked", [], [], none⟩

/-- Ready bead of the root source whose priority is the string zero. -/
def bead_str0 : Bead := ⟨"a", "string priority", some "open", [], [], some (.str "0")⟩

/-- Ready bead of the root source with integer priority one. -/
def bead_int1 : Bead := ⟨"b", "integer priority", some "open", [], [], some (.int 1)⟩

/-- Root project whose ready bucket ranks bead_str0 against bead_int1. -/
def str0_project : ProjectResult :=
  ⟨"root", ".", some ⟨[], [], [bead_str0, bead_int1], [], []⟩, none⟩

/-- Root-source ready bead of the cross-source scenario, priority 1. -/
def bead_r : Bead := ⟨"R", "root item", some "open", [], [], some (.int 1)⟩

/-- Secondary-source ready bead of the cross-source scenario, priority 0. -/
def bead_s : Bead := ⟨"S", "secondary item", some "open", [], [], some (.int 0)⟩

/-- Projects of the cross-source ranking scenario. -/
def cross_projects : List ProjectResult :=
  [⟨"root", ".", some ⟨[], [], [bead_r], [], []⟩, none⟩,
   ⟨"sub", "modules/sub", some ⟨[], [], [bead_s], [], []⟩, none⟩]

/-- The cross-source projects listed in the opposite order. -/
def cross_projects_swapped : List ProjectResult :=
  [⟨"sub", "modules/sub", some ⟨[], [], [bead_s], [], []⟩, none⟩,
   ⟨"root", ".", some ⟨[], [], [bead_r], [], []⟩, none⟩]

/-- Candidate built for bead_str0 by find_next_bead. -/
def cand_a : Candidate := ⟨bead_str0, "root", ".", 0, (0, 0, ".", "a")⟩

/-- Candidate built for bead_int1 by find_next_bead. -/
def cand_b : Candidate := ⟨bead_int1, "root", ".", 0, (1, 0, ".", "b")⟩

/-- Candidate built for bead_r by find_next_bead. -/
def cand_r : Candidate := ⟨bead_r, "root", ".", 0, (1, 0, ".", "R")⟩

/-- Candidate built for bead_s by find_next_bead. -/
def cand_s : Candidate := ⟨bead_s, "sub", "modules/sub", 1, (0, 1, "modules/sub", "S")⟩

/-- Doctor bead claimed thirty hours before the sample clock, with the
bd CLI spelling of the in-progress status. -/
def stale_underscore : DBead :=
  ⟨"W1", "stalled work", some "in_progress", some "100", some "agent", []⟩

/-- The same work item under the legacy hyphenated status spelling. -/
def stale_hyphen : DBead :=
  ⟨"W1", "stalled work", some "in-progress", some "100", some "agent", []⟩

/-- Summary-format view of stale_underscore, carrying the same stored
status, for reading off its effective state. -/
def stale_underscore_summary : Bead :=
  ⟨"W1", "stalled work", some "in_progress", [], [], none⟩

/-- Timestamp parser of the examples: decimal seconds. -/
def parse_secs (s : String) : Option Int :=
  (PlanningSummary.py_digits_to_nat s.data).map (fun n => (n : Int))

/-- Sample clock thirty hours (108000 seconds) after timestamp 100. -/
def now30 : Int := 108100

/-- Two doctor beads forming a blocking cycle. -/
def cyc_a : DBead := ⟨"A", "first", some "open", none, none, ["B"]⟩

/-- Second half of the two-bead blocking cycle. -/
def cyc_b : DBead := ⟨"B", "second", some "open", none, none, ["A"]⟩

/-- Cyclic doctor source. -/
def cyc_beads : List DBead := [cyc_a, cyc_b]

/-- Doctor bead with one dangling and one resolvable blocker. -/
def orphan_d : DBead := ⟨"D", "dangling", some "open", none, none, ["missing-1", "E"]⟩

/-- Existing target of orphan_d. -/
def orphan_e : DBead := ⟨"E", "existing", some "open", none, none, []⟩

/-- Doctor source of the orphan-check example. -/
def orphan_beads : List DBead := [orphan_d, orphan_e]

/-- Root source whose load succeeds with the chain beads. -/
def src_root : SourceInput := ⟨"root", ".", .ok chain_beads⟩

/-- Submodule whose load fails (load_beads returned False). -/
def src_bad : SourceInput := ⟨"bad", "modules/bad", .load_failed⟩

/-- Submodule whose load succeeds with a single open bead. -/
def src_good : SourceInput := ⟨"good", "modules/good", .ok [bead_s]⟩

end Examples

namespace PlanningSummary

theorem foldl_categorize_step (beads : List Bead) :
    ∀ (l : List Bead) (acc : Categorized),
      l.foldl (categorize_step beads) acc =
        ⟨acc.closed ++ l.filter (fun b => classify_bead beads b == .closed),
         acc.in_progress ++ l.filter (fun b => classify_bead beads b == .in_progress),
         acc.ready ++ l.filter (fun b => classify_bead beads b == .ready),
         acc.blocked ++ l.filter (fun b => classify_bead beads b == .blocked),
         acc.failures ++ l.filter (fun b => decide ("failure" ∈ b.labels))⟩ := by
  intro l
  induction l with
  | nil => intro acc; simp
  | cons hd tl ih =>
    intro acc
    rw [List.foldl_cons, ih]
    unfold categorize_step
    rcases h : classify_bead beads hd with _ | _ | _ | _ <;>
      by_cases hf : "failure" ∈ hd.labels <;>
        simp [h, hf, List.filter_cons]

theorem categorize_buckets (beads : List Bead) :
    categorize_beads beads =
      ⟨beads.filter (fun b => classify_bead beads b == .closed),
       beads.filter (fun b => classify_bead beads b == .in_progress),
       beads.filter (fun b => classify_bead beads b == .ready),
       beads.filter (fun b => classify_bead beads b == .blocked),
       beads.filter (fun b => decide ("failure" ∈ b.labels))⟩ := by
  rw [categorize_beads, foldl_categorize_step]
  simp

theorem unresolved_blockers_eq_nil_iff (beads : List Bead) (b : Bead) :
    unresolved_blockers beads b = [] ↔
      ∀ dep ∈ b.dependencies, is_blocking_dep dep →
        status_map_get beads dep.depends_on_id = "closed" := by
  unfold unresolved_blockers
  rw [List.filterMap_eq_nil_iff]
  constructor
  · intro h dep hmem hblk
    have := h dep hmem
    by_cases ht : dep.type == some "parent-child"
    · exact absurd (by simpa using ht) hblk
    · simp only [ht, if_neg, Bool.false_eq_true, if_false] at this
      by_contra hne
      simp [hne] at this
  · intro h dep hmem
    by_cases ht : dep.type == some "parent-child"
    · simp [ht]
    · have hblk : is_blocking_dep dep := by
        unfold is_blocking_dep; simpa using ht
      simp [ht, h dep hmem hblk]

theorem classify_open_branch (beads : List Bead) (b : Bead)
    (hst : b.status = some "open" ∨ b.status = none) :
    classify_bead beads b =
      (if (unresolved_blockers beads b).isEmpty then .ready else .blocked) := by
  rcases hst with h | h <;> simp [classify_bead, h]

/-- C1: for every item with raw status open (or unset) all of whose
blocking dependencies (dependencies of non-parent-child type) have a
target whose stored status is closed, the classifier assigns effective
state ready and files the bead in the ready bucket; for every such item
with at least one blocking-dependency target whose status is not
closed, it assigns blocked and files the bead in the blocked bucket. -/
theorem open_bead_readiness (beads : List Bead) (b : Bead)
    (hb : b ∈ beads) (hst : b.status = some "open" ∨ b.status = none) :
    ((∀ dep ∈ b.dependencies, is_blocking_dep dep →
        status_map_get beads dep.depends_on_id = "closed") →
      classify_bead beads b = .ready ∧ b ∈ (categorize_beads beads).ready)
    ∧ ((∃ dep ∈ b.dependencies, is_blocking_dep dep ∧
        status_map_get beads dep.depends_on_id ≠ "closed") →
      classify_bead beads b = .blocked ∧ b ∈ (categorize_beads beads).blocked) := by
  constructor
  · intro hall
    have hnil : unresolved_blockers beads b = [] :=
      (unresolved_blockers_eq_nil_iff beads b).mpr hall
    have hc : classify_bead beads b = .ready := by
      rw [classify_open_branch beads b hst, hnil]
      simp
    refine ⟨hc, ?_⟩
    rw [categorize_buckets]
    simp [List.mem_filter, hb, hc]
  · intro ⟨dep, hmem, hblk, hne⟩
    have hnonnil : unresolved_blockers beads b ≠ [] := by
      intro hnil
      exact hne ((unresolved_blockers_eq_nil_iff beads b).mp hnil dep hmem hblk)
    have hc : classify_bead beads b = .blocked := by
      rw [classify_open_branch beads b hst]
      simp [List.isEmpty_iff, hnonnil]
    refine ⟨hc, ?_⟩
    rw [categorize_buckets]
    simp [List.mem_filter, hb, hc]

/-- Witness for C1 on the sequential chain: P2 is open, its only
blocking dependency targets closed P1, so it is classified ready; P3 is
open with its blocking target P2 not closed, so it is blocked. -/
theorem open_bead_readiness_witness :
    (classify_bead Examples.chain_beads Examples.p2 = .ready
      ∧ Examples.p2 ∈ (categorize_beads Examples.chain_beads).ready)
    ∧ (classify_bead Examples.chain_beads Examples.p3 = .blocked
      ∧ Examples.p3 ∈ (categorize_beads Examples.chain_beads).blocked) :=
  ⟨(open_bead_readiness Examples.chain_beads Examples.p2 (by decide)
      (Or.inl (by decide))).1 (by decide),
   (open_bead_readiness Examples.chain_beads Examples.p3 (by decide)
      (Or.inl (by decide))).2
     ⟨⟨some "blocking", some "P2"⟩, by decide, by decide, by decide⟩⟩

/-- C3 counterexample: the open item X whose only blocking dependency
targets the absent id missing-1 is classified blocked, not ready as the
claim states — the missing target reads as status unknown, which is not
closed. -/
theorem dangling_dep_cex :
    classify_bead [Examples.orphan_x] Examples.orphan_x = .blocked
    ∧ (categorize_beads [Examples.orphan_x]).ready = []
    ∧ (categorize_beads [Examples.orphan_x]).blocked = [Examples.orphan_x] := by
  refine ⟨by decide, ?_, ?_⟩ <;> · rw [categorize_buckets]; decide

/-- C3 amended: a dangling blocking dependency does affect the item's
readiness: for every item with raw status open (or unset) that has a
blocking dependency whose target id is absent from the same-source
index, the classifier looks the target up as status unknown and assigns
effective state blocked (so an item whose only blocking dependency is
dangling is classified blocked, never ready). -/
theorem dangling_dep_blocks (beads : List Bead) (b : Bead) (dep : Dependency)
    (hst : b.status = some "open" ∨ b.status = none)
    (hmem : dep ∈ b.dependencies) (hblk : is_blocking_dep dep)
    (hdangling : ∀ k, dep.depends_on_id = some k → k ∉ (beads.map (fun x => x.id))) :
    status_map_get beads dep.depends_on_id = "unknown"
    ∧ classify_bead beads b = .blocked := by
  have hsm : status_map_get beads dep.depends_on_id = "unknown" := by
    cases hdi : dep.depends_on_id with
    | none => simp [status_map_get]
    | some k =>
      have hk := hdangling k hdi
      have hf : beads.reverse.find? (fun x => x.id == k) = none := by
        rw [List.find?_eq_none]
        intro x hx
        simp only [beq_iff_eq]
        intro hxk
        exact hk (hxk ▸ List.mem_map_of_mem (fun y => y.id) (List.mem_reverse.mp hx))
      simp [status_map_get, hf]
  refine ⟨hsm, ?_⟩
  have hnonnil : unresolved_blockers beads b ≠ [] := by
    intro hnil
    have := (unresolved_blockers_eq_nil_iff beads b).mp hnil dep hmem hblk
    rw [hsm] at this
    exact absurd this (by decide)
  rw [classify_open_branch beads b hst]
  simp [List.isEmpty_iff, hnonnil]

/-- Witness for the amended C3 at the concrete orphan item. -/
theorem dangling_dep_blocks_witness :
    status_map_get [Examples.orphan_x] (some "missing-1") = "unknown"
    ∧ classify_bead [Examples.orphan_x] Examples.orphan_x = .blocked :=
  dangling_dep_blocks [Examples.orphan_x] Examples.orphan_x
    ⟨some "blocking", some "missing-1"⟩ (Or.inl (by decide)) (by decide)
    (by decide) (by intro k hk; simp at hk; subst hk; decide)

/-- C4 counterexample: the item whose stored status is explicitly the
string blocked falls to the final else branch of categorize_beads and
lands in the ready bucket, not the blocked bucket the claim states. -/
theorem explicit_blocked_cex :
    classify_bead [Examples.explicit_blocked] Examples.explicit_blocked = .ready
    ∧ (categorize_beads [Examples.explicit_blocked]).blocked = []
    ∧ (categorize_beads [Examples.explicit_blocked]).ready = [Examples.explicit_blocked] := by
  refine ⟨by decide, ?_, ?_⟩ <;> · rw [categorize_buckets]; decide

/-- C4 amended: for every item whose stored status is explicitly the
string blocked, the classifier has no matching branch and the final
else assigns effective state ready, regardless of its dependencies. -/
theorem explicit_blocked_goes_ready (beads : List Bead) (b : Bead)
    (hst : b.status = some "blocked") :
    classify_bead beads b = .ready
    ∧ (b ∈ beads → b ∈ (categorize_beads beads).ready) := by
  have hc : classify_bead beads b = .ready := by
    simp [classify_bead, hst]
  refine ⟨hc, fun hb => ?_⟩
  rw [categorize_buckets]
  simp [List.mem_filter, hb, hc]

/-- Witness for the amended C4 at the concrete explicitly-blocked item. -/
theorem explicit_blocked_goes_ready_witness :
    classify_bead [Examples.explicit_blocked] Examples.explicit_blocked = .ready
    ∧ Examples.explicit_blocked ∈ (categorize_beads [Examples.explicit_blocked]).ready :=
  have h := explicit_blocked_goes_ready [Examples.explicit_blocked]
    Examples.explicit_blocked (by decide)
  ⟨h.1, h.2 (by decide)⟩

/-- C10: categorization is a partition: every loaded item lands in
exactly one of the four effective-state buckets, so the four bucket
sizes sum to the number of loaded items. -/
theorem buckets_partition (beads : List Bead) :
    (categorize_beads beads).closed.length
      + (categorize_beads beads).in_progress.length
      + (categorize_beads beads).ready.length
      + (categorize_beads beads).blocked.length
    = beads.length := by
  rw [categorize_buckets]
  have key : ∀ l : List Bead,
      (l.filter (fun b => classify_bead beads b == .closed)).length
        + (l.filter (fun b => classify_bead beads b == .in_progress)).length
        + (l.filter (fun b => classify_bead beads b == .ready)).length
        + (l.filter (fun b => classify_bead beads b == .blocked)).length
      = l.length := by
    intro l
    induction l with
    | nil => simp
    | cons hd tl ih =>
      rcases h : classify_bead beads hd with _ | _ | _ | _ <;>
        simp [List.filter_cons, h] <;> omega
  exact key beads

end PlanningSummary

namespace PlanningDoctor

/-- C7: a blocking edge is reported by check_orphaned_beads exactly when
its target id is absent from the id set of the same source: a finding
for bead_id blocking on blocker_id is in the issues list iff some bead
with that id and title carries that blocker and the blocker id names no
bead of the source. -/
theorem orphan_findings_iff (beads : List DBead) (f : OrphanIssue) :
    f ∈ check_orphaned_beads beads ↔
      (∃ b ∈ beads, b.id = f.bead_id ∧ b.title = f.bead_title
        ∧ f.blocker_id ∈ b.blocked_by)
      ∧ f.blocker_id ∉ bead_ids beads := by
  obtain ⟨fid, fttl, fbl⟩ := f
  unfold check_orphaned_beads
  rw [List.mem_flatMap]
  constructor
  · rintro ⟨b, hb, hf⟩
    rw [List.mem_map] at hf
    obtain ⟨t, ht, hft⟩ := hf
    rw [List.mem_filter] at ht
    obtain ⟨htmem, htabs⟩ := ht
    obtain ⟨h1, h2, h3⟩ := OrphanIssue.mk.injEq .. ▸ hft
    subst h1; subst h2; subst h3
    refine ⟨⟨b, hb, rfl, rfl, htmem⟩, ?_⟩
    simpa using htabs
  · rintro ⟨⟨b, hb, hid, httl, hbl⟩, habs⟩
    refine ⟨b, hb, ?_⟩
    rw [List.mem_map]
    refine ⟨fbl, ?_, by rw [hid, httl]⟩
    rw [List.mem_filter]
    exact ⟨hbl, by simpa using habs⟩

/-- Witness for C7: the bead D blocking on the absent missing-1 and the
present E yields exactly the finding for missing-1, and the iff applied
at that finding discharges both directions concretely. -/
theorem orphan_findings_iff_witness :
    (⟨"D", "dangling", "missing-1"⟩ : OrphanIssue) ∈ check_orphaned_beads Examples.orphan_beads
    ∧ check_orphaned_beads Examples.orphan_beads = [⟨"D", "dangling", "missing-1"⟩] :=
  ⟨(orphan_findings_iff Examples.orphan_beads ⟨"D", "dangling", "missing-1"⟩).mpr
      ⟨⟨Examples.orphan_d, by decide, by decide, by decide, by decide⟩, by decide⟩,
   by decide⟩

/-- C5 counterexample: a work item stored with the bd CLI status
spelling in_progress has effective state in_progress under the
classifier, carries a parsable claimed_at thirty hours old, yet
check_stale_in_progress (which matches only the hyphenated spelling)
emits no finding at threshold 24. -/
theorem stale_effective_in_progress_cex :
    PlanningSummary.classify_bead [Examples.stale_underscore_summary]
      Examples.stale_underscore_summary = .in_progress
    ∧ Examples.parse_secs "100" = some 100
    ∧ Examples.now30 - 100 > 24 * 3600
    ∧ check_stale_in_progress Examples.parse_secs Examples.now30 24
        [Examples.stale_underscore] = [] := by
  refine ⟨by decide, by decide, by decide, by decide⟩

/-- C5 amended: check_stale_in_progress emits a StaleClaim finding
exactly for the items whose stored status is the hyphenated string
in-progress (the underscore spelling is not matched) with a present,
truthy and parsable claimed_at whose age strictly exceeds the threshold
converted to seconds; items with missing or unparsable claimed_at are
silently skipped. An item claimed 30 hours ago yields exactly one
finding at threshold 24 and none at threshold 48. -/
theorem stale_findings_characterization (parse_ts : String → Option Int) (now : Int)
    (stale_threshold_hours : Int) (beads : List DBead) (w : StaleWarning) :
    (w ∈ check_stale_in_progress parse_ts now stale_threshold_hours beads ↔
      ∃ b ∈ beads, b.status = some "in-progress"
        ∧ ∃ s, b.claimed_at = some s ∧ s ≠ ""
        ∧ ∃ t, parse_ts s = some t ∧ now - t > stale_threshold_hours * 3600
        ∧ w = ⟨b.id, b.title, (now - t).tdiv 3600, b.assignee.getD "unknown"⟩)
    ∧ check_stale_in_progress Examples.parse_secs Examples.now30 24 [Examples.stale_hyphen]
      = [⟨"W1", "stalled work", 30, "agent"⟩]
    ∧ check_stale_in_progress Examples.parse_secs Examples.now30 48 [Examples.stale_hyphen]
      = [] := by
  refine ⟨?_, by decide, by decide⟩
  unfold check_stale_in_progress
  rw [List.mem_filterMap]
  constructor
  · rintro ⟨b, hb, hf⟩
    by_cases hst : b.status = some "in-progress"
    · refine ⟨b, hb, hst, ?_⟩
      have hbe : (b.status == some "in-progress") = true := by simpa using hst
      simp only [hbe, if_true] at hf
      cases hca : b.claimed_at with
      | none => simp [hca] at hf
      | some s =>
        by_cases hs : s = ""
        · simp [hca, hs] at hf
        · cases hpt : parse_ts s with
          | none => simp [hca, hs, hpt] at hf
          | some t =>
            by_cases hage : now - t > stale_threshold_hours * 3600
            · refine ⟨s, rfl, hs, t, hpt, hage, ?_⟩
              simp [hca, hs, hpt, hage] at hf
              exact hf.symm
            · simp [hca, hs, hpt, hage] at hf
    · exfalso
      have hbe : (b.status == some "in-progress") = false := by simpa using hst
      simp [hbe] at hf
  · rintro ⟨b, hb, hst, s, hca, hs, t, hpt, hage, hw⟩
    refine ⟨b, hb, ?_⟩
    have hbe : (b.status == some "in-progress") = true := by simpa using hst
    simp [hbe, hca, hs, hpt, hage, hw]

/-- Witness for the amended C5: the hyphen-status item claimed 30 hours
before the clock is reported at threshold 24 via the characterization. -/
theorem stale_findings_characterization_witness :
    (⟨"W1", "stalled work", 30, "agent"⟩ : StaleWarning)
      ∈ check_stale_in_progress Examples.parse_secs Examples.now30 24 [Examples.stale_hyphen] :=
  ((stale_findings_characterization Examples.parse_secs Examples.now30 24
      [Examples.stale_hyphen] ⟨"W1", "stalled work", 30, "agent"⟩).1).mpr
    ⟨Examples.stale_hyphen, by decide, by decide, "100", by decide, by decide,
      100, by decide, by decide, by decide⟩

end PlanningDoctor

namespace PlanningSummary

theorem process_all_projects_eq_map (root : SourceInput) (subs : List SourceInput) :
    process_all_projects root subs = process_one root :: subs.map process_one := by
  unfold process_all_projects
  suffices h : ∀ (l : List SourceInput) (acc : List ProjectResult),
      l.foldl (fun results sub => results ++ [process_one sub]) acc
        = acc ++ l.map process_one by
    simpa using h subs [process_one root]
  intro l
  induction l with
  | nil => intro acc; simp
  | cons hd tl ih => intro acc; simp [ih]

/-- C8: aggregation isolates failures per source: the results list has
exactly one entry per source (root first), the entry at a position is a
function of that source alone, a source whose load succeeded always
gets a populated classification (categorize_beads of its beads, no
error), and a failing source gets an isolated error entry — so no
failure prevents the classification of any other source or aborts the
aggregation. -/
theorem aggregation_isolated (root : SourceInput) (subs : List SourceInput) :
    (process_all_projects root subs).length = subs.length + 1
    ∧ (∀ bs, root.outcome = .ok bs →
        (process_all_projects root subs).head? =
          some ⟨root.name, root.path, some (categorize_beads bs), none⟩)
    ∧ (∀ i src, subs[i]? = some src →
        (process_all_projects root subs)[i + 1]? = some (process_one src)
        ∧ (∀ bs, src.outcome = .ok bs →
            process_one src = ⟨src.name, src.path, some (categorize_beads bs), none⟩)
        ∧ (src.outcome = .load_failed →
            process_one src = ⟨src.name, src.path, none, some "Failed to load beads"⟩)
        ∧ (∀ msg, src.outcome = .raised msg →
            process_one src = ⟨src.name, src.path, none, some msg⟩)) := by
  rw [process_all_projects_eq_map]
  refine ⟨by simp, ?_, ?_⟩
  · intro bs hbs
    simp [process_one, hbs]
  · intro i src hsrc
    refine ⟨?_, ?_, ?_, ?_⟩
    · simp [hsrc]
    · intro bs hbs; simp [process_one, hbs]
    · intro hlf; simp [process_one, hlf]
    · intro msg hmsg; simp [process_one, hmsg]

/-- Witness for C8: with a failing submodule between two loading
sources, the failing one yields an isolated error entry while the later
source still yields its populated classification. -/
theorem aggregation_isolated_witness :
    (process_all_projects Examples.src_root [Examples.src_bad, Examples.src_good])[2]?
      = some (process_one Examples.src_good)
    ∧ process_one Examples.src_good
      = ⟨"good", "modules/good", some (categorize_beads [Examples.bead_s]), none⟩
    ∧ (process_all_projects Examples.src_root [Examples.src_bad, Examples.src_good])[1]?
      = some ⟨"bad", "modules/bad", none, some "Failed to load beads"⟩ := by
  have h := aggregation_isolated Examples.src_root [Examples.src_bad, Examples.src_good]
  have hg := h.2.2 1 Examples.src_good (by decide)
  have hb := h.2.2 0 Examples.src_bad (by decide)
  refine ⟨hg.1, hg.2.1 [Examples.bead_s] (by decide), ?_⟩
  have hb1 := hb.1
  rw [hb.2.2.1 (by decide)] at hb1
  exact hb1

end PlanningSummary

namespace PlanningSummary

theorem natlist_lt_irrefl : ∀ a, natlist_lt a a = false := by
  intro a
  induction a with
  | nil => rfl
  | cons x xs ih => simp [natlist_lt, ih]

theorem natlist_lt_trichotomy : ∀ a b, natlist_lt a b = true ∨ natlist_lt b a = true ∨ a = b := by
  intro a
  induction a with
  | nil =>
    intro b
    cases b with
    | nil => right; right; rfl
    | cons y ys => left; rfl
  | cons x xs ih =>
    intro b
    cases b with
    | nil => right; left; rfl
    | cons y ys =>
      rcases Nat.lt_trichotomy x y with h | h | h
      · left; simp [natlist_lt, h]
      · subst h
        rcases ih ys with h2 | h2 | h2
        · left; simp [natlist_lt, h2]
        · right; left; simp [natlist_lt, h2]
        · right; right; rw [h2]
      · right; left; simp [natlist_lt, h]

theorem natlist_lt_asymm : ∀ a b, natlist_lt a b = true → natlist_lt b a = false := by
  intro a
  induction a with
  | nil =>
    intro b h
    cases b with
    | nil => exact absurd h (by simp [natlist_lt])
    | cons y ys => rfl
  | cons x xs ih =>
    intro b h
    cases b with
    | nil => exact absurd h (by simp [natlist_lt])
    | cons y ys =>
      rw [Bool.eq_false_iff]
      intro hc
      simp only [natlist_lt, Bool.or_eq_true, Bool.and_eq_true, beq_iff_eq,
        decide_eq_true_eq] at h hc
      rcases h with h | ⟨hxy, hlt⟩ <;> rcases hc with hc | ⟨hyx, hltc⟩
      · omega
      · omega
      · omega
      · subst hxy
        have h2 := ih ys hlt
        rw [hltc] at h2
        cases h2

theorem natlist_lt_trans : ∀ a b c,
    natlist_lt a b = true → natlist_lt b c = true → natlist_lt a c = true := by
  intro a
  induction a with
  | nil =>
    intro b c hab hbc
    cases b with
    | nil => exact absurd hab (by simp [natlist_lt])
    | cons y ys =>
      cases c with
      | nil => exact absurd hbc (by simp [natlist_lt])
      | cons z zs => rfl
  | cons x xs ih =>
    intro b c hab hbc
    cases b with
    | nil => exact absurd hab (by simp [natlist_lt])
    | cons y ys =>
      cases c with
      | nil => exact absurd hbc (by simp [natlist_lt])
      | cons z zs =>
        simp only [natlist_lt, Bool.or_eq_true, Bool.and_eq_true, beq_iff_eq,
          decide_eq_true_eq] at hab hbc ⊢
        rcases hab with h1 | ⟨h1, h1l⟩ <;> rcases hbc with h2 | ⟨h2, h2l⟩
        · left; omega
        · left; omega
        · left; omega
        · right; exact ⟨by omega, ih ys zs h1l h2l⟩

theorem natlist_lt_both_false {a b : List Nat} (h : natlist_lt a b = true)
    (h2 : natlist_lt b a = true) : False := by
  have h3 := natlist_lt_asymm a b h
  rw [h2] at h3
  cases h3

theorem natlist_lt_of_eq_false {a b : List Nat} (he : a = b)
    (h : natlist_lt a b = true) : False := by
  rw [he] at h
  rw [natlist_lt_irrefl] at h
  cases h

theorem key_le_iff (k1 k2 : SortKey) :
    key_le k1 k2 = true ↔ kLT k1 k2 ∨ enc_key k1 = enc_key k2 := by
  obtain ⟨p1, t1, s1, i1⟩ := k1
  obtain ⟨p2, t2, s2, i2⟩ := k2
  unfold key_le kLT enc_key
  simp only [Prod.mk.injEq]
  split_ifs with h1 h2 h3 h4 h5 h6 h7 h8
  · exact iff_of_true rfl (Or.inl (Or.inl h1))
  · refine iff_of_false (by simp) ?_
    rintro (h | h)
    · rcases h with h | ⟨hp, _⟩ <;> omega
    · obtain ⟨hp, _⟩ := h; omega
  · exact iff_of_true rfl (Or.inl (Or.inr ⟨by omega, Or.inl h3⟩))
  · refine iff_of_false (by simp) ?_
    rintro (h | h)
    · rcases h with h | ⟨hp, h | ⟨ht, _⟩⟩ <;> omega
    · obtain ⟨hp, ht, _⟩ := h; omega
  · exact iff_of_true rfl (Or.inl (Or.inr ⟨by omega, Or.inr ⟨by omega, Or.inl h5⟩⟩))
  · refine iff_of_false (by simp) ?_
    rintro (h | h)
    · rcases h with h | ⟨hp, h | ⟨ht, h | ⟨hs, _⟩⟩⟩
      · omega
      · omega
      · exact h5 h
      · exact natlist_lt_of_eq_false hs.symm h6
    · obtain ⟨_, _, hs, _⟩ := h
      exact natlist_lt_of_eq_false hs.symm h6
  · have hs : str_key s1 = str_key s2 := by
      rcases natlist_lt_trichotomy (str_key s1) (str_key s2) with h | h | h
      · exact absurd h h5
      · exact absurd h h6
      · exact h
    exact iff_of_true rfl
      (Or.inl (Or.inr ⟨by omega, Or.inr ⟨by omega, Or.inr ⟨hs, h7⟩⟩⟩))
  · refine iff_of_false (by simp) ?_
    rintro (h | h)
    · rcases h with h | ⟨hp, h | ⟨ht, h | ⟨hs, h⟩⟩⟩
      · omega
      · omega
      · exact h5 h
      · exact h7 h
    · obtain ⟨_, _, _, hi⟩ := h
      exact natlist_lt_of_eq_false hi.symm h8
  · have hs : str_key s1 = str_key s2 := by
      rcases natlist_lt_trichotomy (str_key s1) (str_key s2) with h | h | h
      · exact absurd h h5
      · exact absurd h h6
      · exact h
    have hi : str_key i1 = str_key i2 := by
      rcases natlist_lt_trichotomy (str_key i1) (str_key i2) with h | h | h
      · exact absurd h h7
      · exact absurd h h8
      · exact h
    exact iff_of_true rfl (Or.inr ⟨by omega, by omega, hs, hi⟩)

theorem kLT_asymm (k1 k2 : SortKey) (h : kLT k1 k2) : ¬ kLT k2 k1 := by
  obtain ⟨p1, t1, s1, i1⟩ := k1
  obtain ⟨p2, t2, s2, i2⟩ := k2
  unfold kLT at h ⊢
  rcases h with hp | ⟨hp, ht | ⟨ht, hs | ⟨hs, hi⟩⟩⟩ <;>
    rintro (hp2 | ⟨hp2, ht2 | ⟨ht2, hs2 | ⟨hs2, hi2⟩⟩⟩) <;>
      first
        | omega
        | exact natlist_lt_both_false hs hs2
        | exact natlist_lt_of_eq_false hs2.symm hs
        | exact natlist_lt_of_eq_false hs.symm hs2
        | exact natlist_lt_both_false hi hi2

theorem kLT_of_enc_left {k1 k2 k3 : SortKey} (he : enc_key k1 = enc_key k2)
    (h : kLT k2 k3) : kLT k1 k3 := by
  obtain ⟨p1, t1, s1, i1⟩ := k1
  obtain ⟨p2, t2, s2, i2⟩ := k2
  obtain ⟨p3, t3, s3, i3⟩ := k3
  unfold enc_key at he
  simp only [Prod.mk.injEq] at he
  obtain ⟨hp, ht, hs, hi⟩ := he
  unfold kLT at h ⊢
  simp only [hp, ht, hs, hi]
  exact h

theorem kLT_of_enc_right {k1 k2 k3 : SortKey} (h : kLT k1 k2)
    (he : enc_key k2 = enc_key k3) : kLT k1 k3 := by
  obtain ⟨p1, t1, s1, i1⟩ := k1
  obtain ⟨p2, t2, s2, i2⟩ := k2
  obtain ⟨p3, t3, s3, i3⟩ := k3
  unfold enc_key at he
  simp only [Prod.mk.injEq] at he
  obtain ⟨hp, ht, hs, hi⟩ := he
  unfold kLT at h ⊢
  simp only [← hp, ← ht, ← hs, ← hi]
  exact h

theorem kLT_trans {k1 k2 k3 : SortKey} (h12 : kLT k1 k2) (h23 : kLT k2 k3) :
    kLT k1 k3 := by
  obtain ⟨p1, t1, s1, i1⟩ := k1
  obtain ⟨p2, t2, s2, i2⟩ := k2
  obtain ⟨p3, t3, s3, i3⟩ := k3
  unfold kLT at h12 h23 ⊢
  rcases h12 with hp | ⟨hp, ht | ⟨ht, hs | ⟨hs, hi⟩⟩⟩ <;>
    rcases h23 with hp2 | ⟨hp2, ht2 | ⟨ht2, hs2 | ⟨hs2, hi2⟩⟩⟩
  · left; omega
  · left; omega
  · left; omega
  · left; omega
  · left; omega
  · exact Or.inr ⟨by omega, Or.inl (by omega)⟩
  · exact Or.inr ⟨by omega, Or.inl (by omega)⟩
  · exact Or.inr ⟨by omega, Or.inl (by omega)⟩
  · left; omega
  · exact Or.inr ⟨by omega, Or.inl (by omega)⟩
  · exact Or.inr ⟨by omega, Or.inr ⟨by omega,
      Or.inl (natlist_lt_trans _ _ _ hs hs2)⟩⟩
  · exact Or.inr ⟨by omega, Or.inr ⟨by omega, Or.inl (hs2 ▸ hs)⟩⟩
  · left; omega
  · exact Or.inr ⟨by omega, Or.inl (by omega)⟩
  · exact Or.inr ⟨by omega, Or.inr ⟨by omega, Or.inl (hs ▸ hs2)⟩⟩
  · exact Or.inr ⟨by omega, Or.inr ⟨by omega,
      Or.inr ⟨hs.trans hs2, natlist_lt_trans _ _ _ hi hi2⟩⟩⟩

theorem key_le_trans (k1 k2 k3 : SortKey) (h12 : key_le k1 k2 = true)
    (h23 : key_le k2 k3 = true) : key_le k1 k3 = true := by
  rw [key_le_iff] at h12 h23 ⊢
  rcases h12 with h12 | h12 <;> rcases h23 with h23 | h23
  · exact Or.inl (kLT_trans h12 h23)
  · exact Or.inl (kLT_of_enc_right h12 h23)
  · exact Or.inl (kLT_of_enc_left h12 h23)
  · exact Or.inr (h12.trans h23)

theorem key_le_total (k1 k2 : SortKey) :
    key_le k1 k2 = true ∨ key_le k2 k1 = true := by
  obtain ⟨p1, t1, s1, i1⟩ := k1
  obtain ⟨p2, t2, s2, i2⟩ := k2
  rcases Int.lt_trichotomy p1 p2 with hp | hp | hp
  · left; rw [key_le_iff]; exact Or.inl (Or.inl hp)
  · rcases Nat.lt_trichotomy t1 t2 with ht | ht | ht
    · left; rw [key_le_iff]; exact Or.inl (Or.inr ⟨hp, Or.inl ht⟩)
    · rcases natlist_lt_trichotomy (str_key s1) (str_key s2) with hs | hs | hs
      · left; rw [key_le_iff]; exact Or.inl (Or.inr ⟨hp, Or.inr ⟨ht, Or.inl hs⟩⟩)
      · right; rw [key_le_iff]
        exact Or.inl (Or.inr ⟨hp.symm, Or.inr ⟨ht.symm, Or.inl hs⟩⟩)
      · rcases natlist_lt_trichotomy (str_key i1) (str_key i2) with hi | hi | hi
        · left; rw [key_le_iff]
          exact Or.inl (Or.inr ⟨hp, Or.inr ⟨ht, Or.inr ⟨hs, hi⟩⟩⟩)
        · right; rw [key_le_iff]
          exact Or.inl (Or.inr ⟨hp.symm, Or.inr ⟨ht.symm, Or.inr ⟨hs.symm, hi⟩⟩⟩)
        · left; rw [key_le_iff]
          exact Or.inr (by simp [enc_key, hp, ht, hs, hi])
    · right; rw [key_le_iff]; exact Or.inl (Or.inr ⟨hp.symm, Or.inl ht⟩)
  · right; rw [key_le_iff]; exact Or.inl (Or.inl hp)

theorem key_le_antisymm (k1 k2 : SortKey) (h12 : key_le k1 k2 = true)
    (h21 : key_le k2 k1 = true) : enc_key k1 = enc_key k2 := by
  rw [key_le_iff] at h12 h21
  rcases h12 with h12 | h12
  · rcases h21 with h21 | h21
    · exact absurd h21 (kLT_asymm _ _ h12)
    · exact absurd (kLT_of_enc_right h12 h21) (by
        intro h
        have := kLT_asymm _ _ h
        exact this h)
  · exact h12

end PlanningSummary

namespace PlanningSummary

theorem mergeSort_pair {α} (le : α → α → Bool) (a b : α) :
    List.mergeSort [a, b] le = if le a b then [a, b] else [b, a] := by
  rw [List.mergeSort]
  simp [List.splitInTwo, List.splitAt, List.splitAt.go, List.merge]

theorem cand_le_trans (a b c : Candidate) (hab : cand_le a b = true)
    (hbc : cand_le b c = true) : cand_le a c = true :=
  key_le_trans a.sort_key b.sort_key c.sort_key hab hbc

theorem cand_le_total (a b : Candidate) : (cand_le a b || cand_le b a) = true := by
  rcases key_le_total a.sort_key b.sort_key with h | h <;> simp [cand_le, h]

theorem find_next_bead_pairwise (projects : List ProjectResult) :
    List.Pairwise (fun c1 c2 => cand_le c1 c2 = true) (find_next_bead projects) :=
  List.sorted_mergeSort cand_le_trans cand_le_total (candidates_of projects)

/-- C6 counterexample: with a ready bead of id a whose priority is the
string zero and a ready bead of id b with integer priority one in the
root project, the claim (non-integer priority defaults to 4, so a sorts
after b) predicts the order b, a; the code converts the string through
int() to priority 0 and produces the order a, b. -/
theorem ranking_claim_key_cex :
    (find_next_bead [Examples.str0_project]).map (fun c => c.bead.id) = ["a", "b"]
    ∧ ((candidates_of [Examples.str0_project]).mergeSort
        (fun c1 c2 => key_le (claim_key c1) (claim_key c2))).map (fun c => c.bead.id)
      = ["b", "a"]
    ∧ effective_priority Examples.bead_str0 = 0
    ∧ claim_default_priority Examples.bead_str0 = 4 := by
  have hc : candidates_of [Examples.str0_project] = [Examples.cand_a, Examples.cand_b] := by
    decide
  refine ⟨?_, ?_, by decide, by decide⟩
  · unfold find_next_bead
    rw [hc, mergeSort_pair]
    decide
  · rw [hc, mergeSort_pair]
    decide

/-- C6 amended: the ranker orders all ready items of all
successfully-loaded sources ascending by the key (priority, source
tier, source path, item id) — where priority defaults to 4 when absent
or not convertible by int() (an integer-valued string is used as that
integer), and root tier 0 sorts before secondary tier 1 — the output is
a permutation of the candidates sorted by that key, the recommended
next item is the head of the order, and in the cross-source scenario
the secondary-source item S with priority 0 ranks above the root-source
item R with priority 1. -/
theorem ranking_sorted :
    (∀ projects : List ProjectResult,
      (find_next_bead projects).Perm (candidates_of projects)
      ∧ List.Pairwise (fun c1 c2 => cand_le c1 c2 = true) (find_next_bead projects)
      ∧ recommended_next projects = (find_next_bead projects).head?)
    ∧ (find_next_bead Examples.cross_projects).map (fun c => c.bead.id) = ["S", "R"]
    ∧ recommended_next Examples.cross_projects = some Examples.cand_s := by
  have hc : candidates_of Examples.cross_projects = [Examples.cand_r, Examples.cand_s] := by
    decide
  have hs : find_next_bead Examples.cross_projects = [Examples.cand_s, Examples.cand_r] := by
    unfold find_next_bead
    rw [hc, mergeSort_pair]
    decide
  refine ⟨fun projects => ⟨List.mergeSort_perm _ _, find_next_bead_pairwise projects, rfl⟩,
    ?_, ?_⟩
  · rw [hs]; decide
  · unfold recommended_next
    rw [hs]
    rfl

/-- C9: the ranker is deterministic and a pure function of its input:
equal input lists give equal output, and (no hidden order dependence)
whenever two inputs produce the same candidates up to permutation and
the sort keys are pairwise distinct, the ranked outputs are identical. -/
theorem ranker_deterministic :
    (∀ ps1 ps2 : List ProjectResult, ps1 = ps2 → find_next_bead ps1 = find_next_bead ps2)
    ∧ (∀ ps1 ps2 : List ProjectResult,
        (candidates_of ps1).Perm (candidates_of ps2) →
        ((candidates_of ps1).map (fun c => enc_key c.sort_key)).Nodup →
        find_next_bead ps1 = find_next_bead ps2) := by
  constructor
  · intro ps1 ps2 h
    rw [h]
  · intro ps1 ps2 hperm hnodup
    have hmem1 : ∀ a, a ∈ find_next_bead ps1 → a ∈ candidates_of ps1 := by
      intro a ha
      exact (List.mergeSort_perm (candidates_of ps1) cand_le).mem_iff.mp ha
    have hmem2 : ∀ a, a ∈ find_next_bead ps2 → a ∈ candidates_of ps1 := by
      intro a ha
      exact hperm.symm.mem_iff.mp
        ((List.mergeSort_perm (candidates_of ps2) cand_le).mem_iff.mp ha)
    refine List.Perm.eq_of_sorted ?_ (find_next_bead_pairwise ps1)
      (find_next_bead_pairwise ps2)
      ((List.mergeSort_perm (candidates_of ps1) cand_le).trans
        (hperm.trans (List.mergeSort_perm (candidates_of ps2) cand_le).symm))
    intro a b ha hb hab hba
    exact List.inj_on_of_nodup_map hnodup (hmem1 a ha) (hmem2 b hb)
      (key_le_antisymm a.sort_key b.sort_key hab hba)

/-- Witness for C9: the two cross-source projects listed in either
order produce permuted candidates with distinct keys, and the ranked
outputs coincide. -/
theorem ranker_deterministic_witness :
    find_next_bead Examples.cross_projects = find_next_bead Examples.cross_projects_swapped :=
  ranker_deterministic.2 Examples.cross_projects Examples.cross_projects_swapped
    (by decide) (by decide)

end PlanningSummary

namespace PlanningDoctor

theorem StateLe.refl (st : DfsState) : StateLe st st :=
  ⟨fun _ h => h, ⟨[], (List.append_nil _).symm⟩, fun _ h => h⟩

theorem StateLe.trans {s1 s2 s3 : DfsState} (h12 : StateLe s1 s2)
    (h23 : StateLe s2 s3) : StateLe s1 s3 := by
  obtain ⟨hv12, ⟨n12, hc12⟩, hb12⟩ := h12
  obtain ⟨hv23, ⟨n23, hc23⟩, hb23⟩ := h23
  exact ⟨fun x hx => hv23 x (hv12 x hx),
    ⟨n12 ++ n23, by rw [hc23, hc12, List.append_assoc]⟩,
    fun x hx => hb23 x (hb12 x hx)⟩

theorem run_blockers_mono (f : String → List String → DfsState → DfsResult)
    (hf : ∀ t path st, StateLe st (state_of (f t path st))) :
    ∀ (ts : List String) (path : List String) (st : DfsState),
      StateLe st (state_of (run_blockers f ts path st)) := by
  intro ts
  induction ts with
  | nil => intro path st; exact StateLe.refl st
  | cons t ts ih =>
    intro path st
    rw [run_blockers]
    cases hr : f t path st with
    | ok found st1 =>
      have h1 : StateLe st st1 := by
        have := hf t path st
        rw [hr] at this
        exact this
      cases found with
      | true => exact h1
      | false => exact h1.trans (ih path st1)
    | valueError st1 =>
      have h1 := hf t path st
      rw [hr] at h1
      exact h1
    | fuelOut st1 =>
      have h1 := hf t path st
      rw [hr] at h1
      exact h1

theorem has_cycle_mono (beads : List DBead) :
    ∀ (fuel : Nat) (bid : String) (path : List String) (st : DfsState),
      StateLe st (state_of (has_cycle beads fuel bid path st)) := by
  intro fuel
  induction fuel with
  | zero => intro bid path st; exact StateLe.refl st
  | succ fuel ih =>
    intro bid path st
    rw [has_cycle]
    by_cases h1 : bid ∈ st.rec_stack
    · rw [if_pos h1]
      by_cases h2 : bid ∈ path
      · rw [if_pos h2]
        exact ⟨fun _ h => h, ⟨_, rfl⟩, fun x hx => hx⟩
      · rw [if_neg h2]
        exact StateLe.refl st
    · rw [if_neg h1]
      by_cases h2 : bid ∈ st.visited
      · rw [if_pos h2]
        exact StateLe.refl st
      · rw [if_neg h2]
        have hst1 : StateLe st
            { st with visited := st.visited ++ [bid],
                      rec_stack := st.rec_stack ++ [bid] } := by
          refine ⟨fun x hx => List.mem_append_left _ hx, ⟨[], (List.append_nil _).symm⟩, ?_⟩
          intro x ⟨hxv, hxr⟩
          refine ⟨List.mem_append_left _ hxv, ?_⟩
          intro hmem
          rcases List.mem_append.mp hmem with h | h
          · exact hxr h
          · rcases List.mem_singleton.mp h with rfl
            exact h2 hxv
        have hrun := run_blockers_mono (has_cycle beads fuel) (ih) (blockers_of beads bid)
          (path ++ [bid])
          { st with visited := st.visited ++ [bid], rec_stack := st.rec_stack ++ [bid] }
        cases hr : run_blockers (has_cycle beads fuel) (blockers_of beads bid) (path ++ [bid])
            { st with visited := st.visited ++ [bid],
                      rec_stack := st.rec_stack ++ [bid] } with
        | ok found st2 =>
          rw [hr] at hrun
          cases found with
          | true => exact hst1.trans hrun
          | false =>
            refine (hst1.trans hrun).trans ?_
            refine ⟨fun x hx => hx, ⟨[], (List.append_nil _).symm⟩, ?_⟩
            intro x ⟨hxv, hxr⟩
            exact ⟨hxv, fun hmem => hxr (List.mem_of_mem_erase hmem)⟩
        | valueError st2 =>
          rw [hr] at hrun
          exact hst1.trans hrun
        | fuelOut st2 =>
          rw [hr] at hrun
          exact hst1.trans hrun

end PlanningDoctor

namespace PlanningDoctor

theorem run_blockers_shape (f : String → List String → DfsState → DfsResult)
    (hfm : ∀ t path st, StateLe st (state_of (f t path st)))
    (hf : ∀ t path st, GoodSt st →
      GoodSt (state_of (f t path st))
      ∧ (∀ st', f t path st = .ok false st' →
          st'.rec_stack = st.rec_stack ∧ st'.cycles = st.cycles)
      ∧ (∀ st', f t path st = .ok true st' → st'.cycles ≠ [])) :
    ∀ (ts path : List String) (st : DfsState), GoodSt st →
      GoodSt (state_of (run_blockers f ts path st))
      ∧ (∀ st', run_blockers f ts path st = .ok false st' →
          st'.rec_stack = st.rec_stack ∧ st'.cycles = st.cycles)
      ∧ (∀ st', run_blockers f ts path st = .ok true st' → st'.cycles ≠ []) := by
  intro ts
  induction ts with
  | nil =>
    intro path st hg
    rw [run_blockers]
    exact ⟨hg, fun st' h => by cases h; exact ⟨rfl, rfl⟩, fun st' h => by cases h⟩
  | cons t ts ih =>
    intro path st hg
    have heq : run_blockers f (t :: ts) path st =
        match f t path st with
        | .ok true st1 => .ok true st1
        | .ok false st1 => run_blockers f ts path st1
        | r => r := by rw [run_blockers]
    cases hr : f t path st with
    | ok found st1 =>
      have hft := hf t path st hg
      rw [hr] at hft heq
      cases found with
      | true =>
        dsimp only at heq
        rw [heq]
        refine ⟨hft.1, ?_, ?_⟩
        · intro st' h
          cases h
        · intro st' h
          cases h
          exact hft.2.2 st1 rfl
      | false =>
        dsimp only at heq
        rw [heq]
        have h1 := hft.2.1 st1 rfl
        have hrec := ih path st1 hft.1
        refine ⟨hrec.1, ?_, ?_⟩
        · intro st' h
          have h2 := hrec.2.1 st' h
          exact ⟨h2.1.trans h1.1, h2.2.trans h1.2⟩
        · intro st' h
          exact hrec.2.2 st' h
    | valueError st1 =>
      have hft := hf t path st hg
      rw [hr] at hft heq
      dsimp only at heq
      rw [heq]
      refine ⟨hft.1, ?_, ?_⟩
      · intro st' h
        cases h
      · intro st' h
        cases h
    | fuelOut st1 =>
      have hft := hf t path st hg
      rw [hr] at hft heq
      dsimp only at heq
      rw [heq]
      refine ⟨hft.1, ?_, ?_⟩
      · intro st' h
        cases h
      · intro st' h
        cases h

theorem has_cycle_shape (beads : List DBead) :
    ∀ (fuel : Nat) (bid : String) (path : List String) (st : DfsState), GoodSt st →
      GoodSt (state_of (has_cycle beads fuel bid path st))
      ∧ (∀ st', has_cycle beads fuel bid path st = .ok false st' →
          st'.rec_stack = st.rec_stack ∧ st'.cycles = st.cycles ∧ bid ∈ st'.visited)
      ∧ (∀ st', has_cycle beads fuel bid path st = .ok true st' → st'.cycles ≠ []) := by
  intro fuel
  induction fuel with
  | zero =>
    intro bid path st hg
    rw [has_cycle]
    refine ⟨hg, ?_, ?_⟩
    · intro st' h
      cases h
    · intro st' h
      cases h
  | succ fuel ih =>
    intro bid path st hg
    by_cases h1 : bid ∈ st.rec_stack
    · by_cases h2 : bid ∈ path
      · have heq : has_cycle beads (fuel + 1) bid path st =
            .ok true { st with cycles :=
              st.cycles ++ [path.drop (path.indexOf bid) ++ [bid]] } := by
          rw [has_cycle, if_pos h1, if_pos h2]
        rw [heq]
        refine ⟨hg, ?_, ?_⟩
        · intro st' h
          cases h
        · intro st' h
          cases h
          simp
      · have heq : has_cycle beads (fuel + 1) bid path st = .valueError st := by
          rw [has_cycle, if_pos h1, if_neg h2]
        rw [heq]
        refine ⟨hg, ?_, ?_⟩
        · intro st' h
          cases h
        · intro st' h
          cases h
    · by_cases h2 : bid ∈ st.visited
      · have heq : has_cycle beads (fuel + 1) bid path st = .ok false st := by
          rw [has_cycle, if_neg h1, if_pos h2]
        rw [heq]
        refine ⟨hg, ?_, ?_⟩
        · intro st' h
          cases h
          exact ⟨rfl, rfl, h2⟩
        · intro st' h
          cases h
      · have hg1 : GoodSt
            { st with visited := st.visited ++ [bid],
                      rec_stack := st.rec_stack ++ [bid] } := by
          constructor
          · intro x hx
            rcases List.mem_append.mp hx with h | h
            · exact List.mem_append_left _ (hg.1 x h)
            · exact List.mem_append_right _ h
          · rw [List.nodup_append]
            refine ⟨hg.2, List.nodup_singleton bid, ?_⟩
            intro a ha hb
            rcases List.mem_singleton.mp hb with rfl
            exact h1 ha
        have hmono : ∀ t p s, StateLe s (state_of (has_cycle beads fuel t p s)) :=
          fun t p s => has_cycle_mono beads fuel t p s
        have hfs : ∀ t p s, GoodSt s →
            GoodSt (state_of (has_cycle beads fuel t p s))
            ∧ (∀ st', has_cycle beads fuel t p s = .ok false st' →
                st'.rec_stack = s.rec_stack ∧ st'.cycles = s.cycles)
            ∧ (∀ st', has_cycle beads fuel t p s = .ok true st' → st'.cycles ≠ []) := by
          intro t p s hgs
          have h := ih t p s hgs
          exact ⟨h.1, fun st' he => ⟨(h.2.1 st' he).1, (h.2.1 st' he).2.1⟩, h.2.2⟩
        have hrun := run_blockers_shape (has_cycle beads fuel) hmono hfs
          (blockers_of beads bid) (path ++ [bid])
          { st with visited := st.visited ++ [bid], rec_stack := st.rec_stack ++ [bid] } hg1
        have hrunm := run_blockers_mono (has_cycle beads fuel) hmono
          (blockers_of beads bid) (path ++ [bid])
          { st with visited := st.visited ++ [bid], rec_stack := st.rec_stack ++ [bid] }
        have heq : has_cycle beads (fuel + 1) bid path st =
            match run_blockers (has_cycle beads fuel) (blockers_of beads bid) (path ++ [bid])
                { st with visited := st.visited ++ [bid],
                          rec_stack := st.rec_stack ++ [bid] } with
            | .ok true st2 => .ok true st2
            | .ok false st2 => .ok false { st2 with rec_stack := st2.rec_stack.erase bid }
            | r => r := by
          rw [has_cycle, if_neg h1, if_neg h2]
        cases hr : run_blockers (has_cycle beads fuel) (blockers_of beads bid) (path ++ [bid])
            { st with visited := st.visited ++ [bid],
                      rec_stack := st.rec_stack ++ [bid] } with
        | ok found st2 =>
          rw [hr] at heq hrun hrunm
          cases found with
          | true =>
            dsimp only at heq
            rw [heq]
            refine ⟨hrun.1, ?_, ?_⟩
            · intro st' h
              cases h
            · intro st' h
              cases h
              exact hrun.2.2 st2 rfl
          | false =>
            dsimp only at heq
            have hsh := hrun.2.1 st2 rfl
            have hrs2 : st2.rec_stack = st.rec_stack ++ [bid] := hsh.1
            have herase : st2.rec_stack.erase bid = st.rec_stack := by
              rw [hrs2, List.erase_append_right _ h1, List.erase_cons_head,
                List.append_nil]
            rw [heq]
            refine ⟨?_, ?_, ?_⟩
            · constructor
              · intro x hx
                simp only [herase] at hx
                exact hrunm.1 x (List.mem_append_left _ (hg.1 x hx))
              · simp only [herase]
                exact hg.2
            · intro st' h
              cases h
              refine ⟨herase, hsh.2, ?_⟩
              exact hrunm.1 bid (List.mem_append_right _ (List.mem_singleton_self bid))
            · intro st' h
              cases h
        | valueError st2 =>
          rw [hr] at heq hrun
          dsimp only at heq
          rw [heq]
          refine ⟨hrun.1, ?_, ?_⟩
          · intro st' h
            cases h
          · intro st' h
            cases h
        | fuelOut st2 =>
          rw [hr] at heq hrun
          dsimp only at heq
          rw [heq]
          refine ⟨hrun.1, ?_, ?_⟩
          · intro st' h
            cases h
          · intro st' h
            cases h

end PlanningDoctor

namespace PlanningDoctor

theorem run_blockers_error (f : String → List String → DfsState → DfsResult)
    (hfs : ∀ t path st, GoodSt st →
      GoodSt (state_of (f t path st))
      ∧ (∀ st', f t path st = .ok false st' →
          st'.rec_stack = st.rec_stack ∧ st'.cycles = st.cycles)
      ∧ (∀ st', f t path st = .ok true st' → st'.cycles ≠ []))
    (hfe : ∀ t path st, GoodSt st → (st.cycles = [] → st.rec_stack = path) →
      ∀ st', f t path st = .valueError st' → st'.cycles ≠ []) :
    ∀ (ts path : List String) (st : DfsState), GoodSt st →
      (st.cycles = [] → st.rec_stack = path) →
      ∀ st', run_blockers f ts path st = .valueError st' → st'.cycles ≠ [] := by
  intro ts
  induction ts with
  | nil =>
    intro path st hg h6 st' h
    rw [run_blockers] at h
    cases h
  | cons t ts ih =>
    intro path st hg h6 st' h
    rw [run_blockers] at h
    cases hr : f t path st with
    | ok found st1 =>
      rw [hr] at h
      cases found with
      | true => cases h
      | false =>
        have hsh := (hfs t path st hg).2.1 st1 hr
        have hg1 : GoodSt st1 := by
          have hgs := (hfs t path st hg).1
          rw [hr] at hgs
          exact hgs
        exact ih path st1 hg1
          (fun hc => by rw [hsh.1, h6 (hsh.2 ▸ hc)]) st' h
    | valueError st1 =>
      rw [hr] at h
      have hco := hfe t path st hg h6 st1 hr
      cases h
      exact hco
    | fuelOut st1 =>
      rw [hr] at h
      cases h

theorem has_cycle_error (beads : List DBead) :
    ∀ (fuel : Nat) (bid : String) (path : List String) (st : DfsState), GoodSt st →
      (st.cycles = [] → st.rec_stack = path) →
      ∀ st', has_cycle beads fuel bid path st = .valueError st' → st'.cycles ≠ [] := by
  intro fuel
  induction fuel with
  | zero =>
    intro bid path st hg h6 st' h
    rw [has_cycle] at h
    cases h
  | succ fuel ih =>
    intro bid path st hg h6 st' h
    by_cases h1 : bid ∈ st.rec_stack
    · by_cases h2 : bid ∈ path
      · rw [has_cycle, if_pos h1, if_pos h2] at h
        cases h
      · rw [has_cycle, if_pos h1, if_neg h2] at h
        cases h
        intro hc
        exact h2 (h6 hc ▸ h1)
    · by_cases h2 : bid ∈ st.visited
      · rw [has_cycle, if_neg h1, if_pos h2] at h
        cases h
      · rw [has_cycle, if_neg h1, if_neg h2] at h
        have hg1 : GoodSt
            { st with visited := st.visited ++ [bid],
                      rec_stack := st.rec_stack ++ [bid] } := by
          constructor
          · intro x hx
            rcases List.mem_append.mp hx with hm | hm
            · exact List.mem_append_left _ (hg.1 x hm)
            · exact List.mem_append_right _ hm
          · rw [List.nodup_append]
            refine ⟨hg.2, List.nodup_singleton bid, ?_⟩
            intro a ha hb
            rcases List.mem_singleton.mp hb with rfl
            exact h1 ha
        have hfs : ∀ t p s, GoodSt s →
            GoodSt (state_of (has_cycle beads fuel t p s))
            ∧ (∀ st', has_cycle beads fuel t p s = .ok false st' →
                st'.rec_stack = s.rec_stack ∧ st'.cycles = s.cycles)
            ∧ (∀ st', has_cycle beads fuel t p s = .ok true st' → st'.cycles ≠ []) := by
          intro t p s hgs
          have hh := has_cycle_shape beads fuel t p s hgs
          exact ⟨hh.1, fun st' he => ⟨(hh.2.1 st' he).1, (hh.2.1 st' he).2.1⟩, hh.2.2⟩
        have hrune := run_blockers_error (has_cycle beads fuel) hfs (ih)
          (blockers_of beads bid) (path ++ [bid])
          { st with visited := st.visited ++ [bid], rec_stack := st.rec_stack ++ [bid] }
          hg1 (fun hc => by rw [h6 hc])
        cases hr : run_blockers (has_cycle beads fuel) (blockers_of beads bid) (path ++ [bid])
            { st with visited := st.visited ++ [bid],
                      rec_stack := st.rec_stack ++ [bid] } with
        | ok found st2 =>
          rw [hr] at h
          cases found with
          | true => cases h
          | false => cases h
        | valueError st2 =>
          rw [hr] at h
          have hco := hrune st2 hr
          cases h
          exact hco
        | fuelOut st2 =>
          rw [hr] at h
          cases h

end PlanningDoctor

namespace PlanningDoctor

theorem mem_all_ids_of_bead {beads : List DBead} {b : DBead} (hb : b ∈ beads) :
    b.id ∈ all_ids beads := by
  unfold all_ids
  rw [List.mem_flatMap]
  exact ⟨b, hb, List.mem_cons_self _ _⟩

theorem mem_all_ids_of_blocker {beads : List DBead} {bid t : String}
    (ht : t ∈ blockers_of beads bid) : t ∈ all_ids beads := by
  unfold blockers_of at ht
  cases hf : beads.find? (fun b => b.id == bid) with
  | none => rw [hf] at ht; cases ht
  | some b =>
    rw [hf] at ht
    unfold all_ids
    rw [List.mem_flatMap]
    exact ⟨b, List.mem_of_find?_eq_some hf, List.mem_cons_of_mem _ ht⟩

theorem unvisited_le {beads : List DBead} {st st' : DfsState}
    (h : ∀ x ∈ st.visited, x ∈ st'.visited) :
    unvisited_count beads st' ≤ unvisited_count beads st := by
  unfold unvisited_count
  refine List.Sublist.length_le (List.monotone_filter_right _ ?_)
  intro a ha
  simp only [decide_eq_true_eq] at ha ⊢
  intro hmem
  exact ha (h a hmem)

theorem unvisited_lt {beads : List DBead} {st : DfsState} {bid : String}
    (hU : bid ∈ all_ids beads) (hnv : bid ∉ st.visited) :
    unvisited_count beads
      { st with visited := st.visited ++ [bid], rec_stack := st.rec_stack ++ [bid] }
      < unvisited_count beads st := by
  unfold unvisited_count
  have hsub : List.Sublist
      ((all_ids beads).dedup.filter (fun x => decide (x ∉ st.visited ++ [bid])))
      ((all_ids beads).dedup.filter (fun x => decide (x ∉ st.visited))) := by
    refine List.monotone_filter_right _ ?_
    intro a ha
    simp only [decide_eq_true_eq] at ha ⊢
    intro hmem
    exact ha (List.mem_append_left _ hmem)
  refine Nat.lt_of_le_of_ne hsub.length_le ?_
  intro hlen
  have heq := hsub.eq_of_length hlen
  have hmem : bid ∈ (all_ids beads).dedup.filter (fun x => decide (x ∉ st.visited)) := by
    rw [List.mem_filter]
    exact ⟨List.mem_dedup.mpr hU, by simpa using hnv⟩
  rw [← heq] at hmem
  rw [List.mem_filter] at hmem
  have := hmem.2
  simp only [decide_eq_true_eq] at this
  exact this (List.mem_append_right _ (List.mem_singleton_self bid))

theorem run_blockers_no_fuelOut (beads : List DBead) (n : Nat)
    (f : String → List String → DfsState → DfsResult)
    (hfm : ∀ t path st, StateLe st (state_of (f t path st)))
    (hfnf : ∀ t path st, t ∈ all_ids beads → unvisited_count beads st < n →
      ∀ st', f t path st ≠ .fuelOut st') :
    ∀ (ts path : List String) (st : DfsState), (∀ t ∈ ts, t ∈ all_ids beads) →
      unvisited_count beads st < n →
      ∀ st', run_blockers f ts path st ≠ .fuelOut st' := by
  intro ts
  induction ts with
  | nil =>
    intro path st hts hcount st' h
    rw [run_blockers] at h
    cases h
  | cons t ts ih =>
    intro path st hts hcount st' h
    rw [run_blockers] at h
    cases hr : f t path st with
    | ok found st1 =>
      rw [hr] at h
      cases found with
      | true => cases h
      | false =>
        have hmono := hfm t path st
        rw [hr] at hmono
        have hle : unvisited_count beads st1 ≤ unvisited_count beads st :=
          unvisited_le hmono.1
        exact ih path st1 (fun x hx => hts x (List.mem_cons_of_mem _ hx))
          (Nat.lt_of_le_of_lt hle hcount) st' h
    | valueError st1 =>
      rw [hr] at h
      cases h
    | fuelOut st1 =>
      exact hfnf t path st (hts t (List.mem_cons_self _ _)) hcount st1 hr

theorem has_cycle_no_fuelOut (beads : List DBead) :
    ∀ (fuel : Nat) (bid : String) (path : List String) (st : DfsState),
      bid ∈ all_ids beads → unvisited_count beads st < fuel →
      ∀ st', has_cycle beads fuel bid path st ≠ .fuelOut st' := by
  intro fuel
  induction fuel with
  | zero =>
    intro bid path st hU hcount
    exact absurd hcount (by omega)
  | succ fuel ih =>
    intro bid path st hU hcount st' h
    by_cases h1 : bid ∈ st.rec_stack
    · by_cases h2 : bid ∈ path
      · rw [has_cycle, if_pos h1, if_pos h2] at h
        cases h
      · rw [has_cycle, if_pos h1, if_neg h2] at h
        cases h
    · by_cases h2 : bid ∈ st.visited
      · rw [has_cycle, if_neg h1, if_pos h2] at h
        cases h
      · rw [has_cycle, if_neg h1, if_neg h2] at h
        have hlt : unvisited_count beads
            { st with visited := st.visited ++ [bid], rec_stack := st.rec_stack ++ [bid] }
            < unvisited_count beads st := unvisited_lt hU h2
        have hrun := run_blockers_no_fuelOut beads fuel (has_cycle beads fuel)
          (fun t p s => has_cycle_mono beads fuel t p s)
          (fun t p s htU hcs => ih t p s htU hcs)
          (blockers_of beads bid) (path ++ [bid])
          { st with visited := st.visited ++ [bid], rec_stack := st.rec_stack ++ [bid] }
          (fun t htm => mem_all_ids_of_blocker htm)
          (by omega)
        cases hr : run_blockers (has_cycle beads fuel) (blockers_of beads bid) (path ++ [bid])
            { st with visited := st.visited ++ [bid],
                      rec_stack := st.rec_stack ++ [bid] } with
        | ok found st2 =>
          rw [hr] at h
          cases found with
          | true => cases h
          | false => cases h
        | valueError st2 =>
          rw [hr] at h
          cases h
        | fuelOut st2 =>
          exact hrun st2 hr

end PlanningDoctor

namespace PlanningDoctor

theorem closed_walk_of_rs_hit {beads : List DBead} {path : List String} {bid : String}
    (hchain : List.Chain' (edge beads) (path ++ [bid])) (hmem : bid ∈ path) :
    ClosedWalk beads (path.drop (path.indexOf bid) ++ [bid]) := by
  have hidx : path.indexOf bid < path.length := List.indexOf_lt_length.mpr hmem
  refine ⟨?_, ?_, ?_⟩
  · rw [List.length_append, List.length_drop]
    simp only [List.length_singleton]
    omega
  · rw [← List.drop_append_of_le_length (Nat.le_of_lt hidx)]
    exact hchain.drop _
  · have hhead : (path.drop (path.indexOf bid) ++ [bid]).head? = some bid := by
      rw [List.head?_append, List.head?_drop,
        List.getElem?_eq_getElem hidx, List.getElem_indexOf hidx]
      rfl
    rw [hhead, List.getLast?_concat]

theorem run_blockers_sound (beads : List DBead)
    (f : String → List String → DfsState → DfsResult) (path' : List String) :
    ∀ (ts : List String),
      (∀ t ∈ ts, ∀ st, sound_cycles beads st →
        sound_cycles beads (state_of (f t path' st))) →
      ∀ st, sound_cycles beads st →
        sound_cycles beads (state_of (run_blockers f ts path' st)) := by
  intro ts
  induction ts with
  | nil =>
    intro _ st hs
    rw [run_blockers]
    exact hs
  | cons t ts ih =>
    intro hf st hs
    have heq : run_blockers f (t :: ts) path' st =
        match f t path' st with
        | .ok true st1 => .ok true st1
        | .ok false st1 => run_blockers f ts path' st1
        | r => r := by rw [run_blockers]
    have hft := hf t (List.mem_cons_self _ _) st hs
    cases hr : f t path' st with
    | ok found st1 =>
      rw [hr] at heq hft
      cases found with
      | true =>
        dsimp only at heq
        rw [heq]
        exact hft
      | false =>
        dsimp only at heq
        rw [heq]
        exact ih (fun x hx => hf x (List.mem_cons_of_mem _ hx)) st1 hft
    | valueError st1 =>
      rw [hr] at heq hft
      dsimp only at heq
      rw [heq]
      exact hft
    | fuelOut st1 =>
      rw [hr] at heq hft
      dsimp only at heq
      rw [heq]
      exact hft

theorem edge_of_blocker {beads : List DBead} {bid t : String}
    (ht : t ∈ blockers_of beads bid) : edge beads bid t := ht

theorem chain_extend {beads : List DBead} {path : List String} {bid t : String}
    (hchain : List.Chain' (edge beads) (path ++ [bid])) (ht : t ∈ blockers_of beads bid) :
    List.Chain' (edge beads) ((path ++ [bid]) ++ [t]) := by
  rw [List.chain'_append]
  refine ⟨hchain, List.chain'_singleton t, ?_⟩
  intro x hx y hy
  rw [List.getLast?_concat] at hx
  cases hx
  cases hy
  exact edge_of_blocker ht

theorem has_cycle_sound (beads : List DBead) :
    ∀ (fuel : Nat) (bid : String) (path : List String) (st : DfsState),
      List.Chain' (edge beads) (path ++ [bid]) →
      sound_cycles beads st →
      sound_cycles beads (state_of (has_cycle beads fuel bid path st)) := by
  intro fuel
  induction fuel with
  | zero =>
    intro bid path st _ hs
    rw [has_cycle]
    exact hs
  | succ fuel ih =>
    intro bid path st hchain hs
    by_cases h1 : bid ∈ st.rec_stack
    · by_cases h2 : bid ∈ path
      · have heq : has_cycle beads (fuel + 1) bid path st =
            .ok true { st with cycles :=
              st.cycles ++ [path.drop (path.indexOf bid) ++ [bid]] } := by
          rw [has_cycle, if_pos h1, if_pos h2]
        rw [heq]
        intro c hc
        rcases List.mem_append.mp hc with hcm | hcm
        · exact hs c hcm
        · rcases List.mem_singleton.mp hcm with rfl
          have hch : List.Chain' (edge beads) (path ++ [bid]) := hchain
          exact closed_walk_of_rs_hit hch h2
      · have heq : has_cycle beads (fuel + 1) bid path st = .valueError st := by
          rw [has_cycle, if_pos h1, if_neg h2]
        rw [heq]
        exact hs
    · by_cases h2 : bid ∈ st.visited
      · have heq : has_cycle beads (fuel + 1) bid path st = .ok false st := by
          rw [has_cycle, if_neg h1, if_pos h2]
        rw [heq]
        exact hs
      · have heq : has_cycle beads (fuel + 1) bid path st =
            match run_blockers (has_cycle beads fuel) (blockers_of beads bid) (path ++ [bid])
                { st with visited := st.visited ++ [bid],
                          rec_stack := st.rec_stack ++ [bid] } with
            | .ok true st2 => .ok true st2
            | .ok false st2 => .ok false { st2 with rec_stack := st2.rec_stack.erase bid }
            | r => r := by
          rw [has_cycle, if_neg h1, if_neg h2]
        have hrun := run_blockers_sound beads (has_cycle beads fuel) (path ++ [bid])
          (blockers_of beads bid)
          (fun t ht st0 hs0 => ih t (path ++ [bid]) st0 (chain_extend hchain ht) hs0)
          { st with visited := st.visited ++ [bid], rec_stack := st.rec_stack ++ [bid] }
          hs
        cases hr : run_blockers (has_cycle beads fuel) (blockers_of beads bid) (path ++ [bid])
            { st with visited := st.visited ++ [bid],
                      rec_stack := st.rec_stack ++ [bid] } with
        | ok found st2 =>
          rw [hr] at heq hrun
          cases found with
          | true =>
            dsimp only at heq
            rw [heq]
            exact hrun
          | false =>
            dsimp only at heq
            rw [heq]
            exact hrun
        | valueError st2 =>
          rw [hr] at heq hrun
          dsimp only at heq
          rw [heq]
          exact hrun
        | fuelOut st2 =>
          rw [hr] at heq hrun
          dsimp only at heq
          rw [heq]
          exact hrun

end PlanningDoctor

namespace PlanningDoctor

theorem closed_walk_pred {beads : List DBead} {c : List String}
    (hc : ClosedWalk beads c) {x : String} (hx : x ∈ c) :
    ∃ u ∈ c, edge beads u x := by
  obtain ⟨hlen, hchain, hhl⟩ := hc
  obtain ⟨i, hi, hix⟩ := List.mem_iff_getElem.mp hx
  rcases Nat.eq_zero_or_pos i with rfl | hpos
  · have hlast : c.get ⟨c.length - 1, by omega⟩ = x := by
      have h1 : c.getLast? = some x := by
        rw [← hhl, List.head?_eq_getElem?, List.getElem?_eq_getElem hi, hix]
      rw [List.getLast?_eq_getElem?,
        List.getElem?_eq_getElem (show c.length - 1 < c.length by omega)] at h1
      have h2 := Option.some_inj.mp h1
      simpa [List.get_eq_getElem] using h2
    have hedge := List.chain'_iff_get.mp hchain (c.length - 2) (by omega)
    refine ⟨c.get ⟨c.length - 2, by omega⟩, List.get_mem c _ _, ?_⟩
    have h2 : c.length - 2 + 1 = c.length - 1 := by omega
    have h3 : c.get ⟨c.length - 2 + 1, by omega⟩ = x := by
      simp only [List.get_eq_getElem, h2]
      have h4 := hlast
      simpa [List.get_eq_getElem] using h4
    rw [← h3]
    exact hedge
  · have hedge := List.chain'_iff_get.mp hchain (i - 1) (by omega)
    refine ⟨c.get ⟨i - 1, by omega⟩, List.get_mem c _ _, ?_⟩
    have h2 : i - 1 + 1 = i := by omega
    have h3 : c.get ⟨i - 1 + 1, by omega⟩ = x := by
      simp only [List.get_eq_getElem, h2]
      exact hix
    rw [← h3]
    exact hedge

theorem black_insert_iff {st : DfsState} {bid x : String} (hnv : bid ∉ st.visited) :
    black { st with visited := st.visited ++ [bid],
                    rec_stack := st.rec_stack ++ [bid] } x ↔ black st x := by
  unfold black
  constructor
  · rintro ⟨hv, hr⟩
    simp only [List.mem_append] at hv hr
    push_neg at hr
    rcases hv with hv | hv
    · exact ⟨hv, hr.1⟩
    · rcases List.mem_singleton.mp hv with rfl
      exact absurd (List.mem_singleton_self x) hr.2
  · rintro ⟨hv, hr⟩
    have hne : x ≠ bid := fun he => hnv (he ▸ hv)
    refine ⟨List.mem_append_left _ hv, ?_⟩
    simp only [List.mem_append]
    push_neg
    exact ⟨hr, by simp [hne]⟩

theorem black_exit_iff {st2 : DfsState} {rs0 : List String} {bid x : String}
    (hrs : st2.rec_stack = rs0 ++ [bid]) (hb : bid ∉ rs0) (hv : bid ∈ st2.visited) :
    black { st2 with rec_stack := st2.rec_stack.erase bid } x ↔
      x = bid ∨ black st2 x := by
  have herase : st2.rec_stack.erase bid = rs0 := by
    rw [hrs, List.erase_append_right _ hb, List.erase_cons_head, List.append_nil]
  unfold black
  rw [herase]
  constructor
  · rintro ⟨hxv, hxr⟩
    by_cases hxb : x = bid
    · exact Or.inl hxb
    · refine Or.inr ⟨hxv, ?_⟩
      rw [hrs]
      simp only [List.mem_append]
      push_neg
      exact ⟨hxr, by simp [hxb]⟩
  · rintro (rfl | ⟨hxv, hxr⟩)
    · exact ⟨hv, hb⟩
    · rw [hrs] at hxr
      simp only [List.mem_append] at hxr
      push_neg at hxr
      exact ⟨hxv, hxr.1⟩

end PlanningDoctor

namespace PlanningDoctor

theorem run_blockers_complete (beads : List DBead)
    (f : String → List String → DfsState → DfsResult) (path' : List String)
    (hfm : ∀ t path st, StateLe st (state_of (f t path st)))
    (hfs : ∀ t path st, GoodSt st →
      GoodSt (state_of (f t path st))
      ∧ (∀ st', f t path st = .ok false st' →
          st'.rec_stack = st.rec_stack ∧ st'.cycles = st.cycles)
      ∧ (∀ st', f t path st = .ok true st' → st'.cycles ≠ []))
    (hfc : ∀ t st, GoodSt st → (st.cycles = [] → st.rec_stack = path') →
      (st.cycles = [] → BlackClosed beads st) → (st.cycles = [] → NoBlackCycle beads st) →
      ∀ st', f t path' st = .ok false st' → st.cycles = [] →
        black st' t ∧ BlackClosed beads st' ∧ NoBlackCycle beads st') :
    ∀ (ts : List String) (st : DfsState), GoodSt st →
      (st.cycles = [] → st.rec_stack = path') →
      (st.cycles = [] → BlackClosed beads st) → (st.cycles = [] → NoBlackCycle beads st) →
      ∀ st', run_blockers f ts path' st = .ok false st' → st.cycles = [] →
        BlackClosed beads st' ∧ NoBlackCycle beads st' ∧ ∀ t ∈ ts, black st' t := by
  intro ts
  induction ts with
  | nil =>
    intro st hg h6 hbc hnb st' h hcyc
    rw [run_blockers] at h
    cases h
    exact ⟨hbc hcyc, hnb hcyc, fun t ht => absurd ht (List.not_mem_nil t)⟩
  | cons t ts ih =>
    intro st hg h6 hbc hnb st' h hcyc
    rw [run_blockers] at h
    cases hr : f t path' st with
    | ok found st1 =>
      rw [hr] at h
      cases found with
      | true => cases h
      | false =>
        dsimp only at h
        have hone := hfc t st hg h6 hbc hnb st1 hr hcyc
        have hsh := (hfs t path' st hg).2.1 st1 hr
        have hg1 : GoodSt st1 := by
          have hgs := (hfs t path' st hg).1
          rw [hr] at hgs
          exact hgs
        have hcyc1 : st1.cycles = [] := hsh.2.trans hcyc
        have hrest := ih st1 hg1 (fun _ => hsh.1.trans (h6 hcyc))
          (fun _ => hone.2.1) (fun _ => hone.2.2) st' h hcyc1
        refine ⟨hrest.1, hrest.2.1, ?_⟩
        intro x hxm
        rcases List.mem_cons.mp hxm with rfl | hxm
        · have hmono := run_blockers_mono f hfm ts path' st1
          rw [h] at hmono
          exact hmono.2.2 x hone.1
        · exact hrest.2.2 x hxm
    | valueError st1 =>
      rw [hr] at h
      cases h
    | fuelOut st1 =>
      rw [hr] at h
      cases h

theorem has_cycle_complete (beads : List DBead) :
    ∀ (fuel : Nat) (bid : String) (path : List String) (st : DfsState),
      GoodSt st → (st.cycles = [] → st.rec_stack = path) →
      (st.cycles = [] → BlackClosed beads st) → (st.cycles = [] → NoBlackCycle beads st) →
      ∀ st', has_cycle beads fuel bid path st = .ok false st' → st.cycles = [] →
        black st' bid ∧ BlackClosed beads st' ∧ NoBlackCycle beads st' := by
  intro fuel
  induction fuel with
  | zero =>
    intro bid path st _ _ _ _ st' h
    rw [has_cycle] at h
    cases h
  | succ fuel ih =>
    intro bid path st hg h6 hbc hnb st' h hcyc
    by_cases h1 : bid ∈ st.rec_stack
    · by_cases h2 : bid ∈ path
      · rw [has_cycle, if_pos h1, if_pos h2] at h
        cases h
      · rw [has_cycle, if_pos h1, if_neg h2] at h
        cases h
    · by_cases h2 : bid ∈ st.visited
      · rw [has_cycle, if_neg h1, if_pos h2] at h
        cases h
        exact ⟨⟨h2, h1⟩, hbc hcyc, hnb hcyc⟩
      · rw [has_cycle, if_neg h1, if_neg h2] at h
        have hg1 : GoodSt
            { st with visited := st.visited ++ [bid],
                      rec_stack := st.rec_stack ++ [bid] } := by
          constructor
          · intro x hx
            rcases List.mem_append.mp hx with hm | hm
            · exact List.mem_append_left _ (hg.1 x hm)
            · exact List.mem_append_right _ hm
          · rw [List.nodup_append]
            refine ⟨hg.2, List.nodup_singleton bid, ?_⟩
            intro a ha hb
            rcases List.mem_singleton.mp hb with rfl
            exact h1 ha
        have hfs : ∀ t p s, GoodSt s →
            GoodSt (state_of (has_cycle beads fuel t p s))
            ∧ (∀ st', has_cycle beads fuel t p s = .ok false st' →
                st'.rec_stack = s.rec_stack ∧ st'.cycles = s.cycles)
            ∧ (∀ st', has_cycle beads fuel t p s = .ok true st' → st'.cycles ≠ []) := by
          intro t p s hgs
          have hh := has_cycle_shape beads fuel t p s hgs
          exact ⟨hh.1, fun sx he => ⟨(hh.2.1 sx he).1, (hh.2.1 sx he).2.1⟩, hh.2.2⟩
        have hbc1 : BlackClosed beads
            { st with visited := st.visited ++ [bid],
                      rec_stack := st.rec_stack ++ [bid] } := by
          intro u v hu he
          rw [black_insert_iff h2] at hu ⊢
          exact hbc hcyc u v hu he
        have hnb1 : NoBlackCycle beads
            { st with visited := st.visited ++ [bid],
                      rec_stack := st.rec_stack ++ [bid] } := by
          rintro ⟨c, hcw, hall⟩
          exact hnb hcyc ⟨c, hcw, fun x hx => (black_insert_iff h2).mp (hall x hx)⟩
        cases hr : run_blockers (has_cycle beads fuel) (blockers_of beads bid) (path ++ [bid])
            { st with visited := st.visited ++ [bid],
                      rec_stack := st.rec_stack ++ [bid] } with
        | ok found st2 =>
          rw [hr] at h
          cases found with
          | true => cases h
          | false =>
            cases h
            have hrunc := run_blockers_complete beads (has_cycle beads fuel) (path ++ [bid])
              (fun t p s => has_cycle_mono beads fuel t p s) hfs
              (fun t s hgs hs6 hsbc hsnb sx he hsc => ih t (path ++ [bid]) s hgs hs6 hsbc hsnb sx he hsc)
              (blockers_of beads bid)
              { st with visited := st.visited ++ [bid], rec_stack := st.rec_stack ++ [bid] }
              hg1 (fun hcy => by rw [h6 hcy]) (fun _ => hbc1) (fun _ => hnb1)
              st2 hr hcyc
            have hrsh := (run_blockers_shape (has_cycle beads fuel)
              (fun t p s => has_cycle_mono beads fuel t p s) hfs
              (blockers_of beads bid) (path ++ [bid])
              { st with visited := st.visited ++ [bid], rec_stack := st.rec_stack ++ [bid] }
              hg1).2.1 st2 hr
            have hrs2 : st2.rec_stack = st.rec_stack ++ [bid] := hrsh.1
            have hmono := run_blockers_mono (has_cycle beads fuel)
              (fun t p s => has_cycle_mono beads fuel t p s)
              (blockers_of beads bid) (path ++ [bid])
              { st with visited := st.visited ++ [bid], rec_stack := st.rec_stack ++ [bid] }
            rw [hr] at hmono
            have hvbid : bid ∈ st2.visited :=
              hmono.1 bid (List.mem_append_right _ (List.mem_singleton_self bid))
            have hbidrs2 : bid ∈ st2.rec_stack := by
              rw [hrs2]
              exact List.mem_append_right _ (List.mem_singleton_self bid)
            refine ⟨?_, ?_, ?_⟩
            · rw [black_exit_iff hrs2 h1 hvbid]
              exact Or.inl rfl
            · intro u v hu he
              rw [black_exit_iff hrs2 h1 hvbid] at hu ⊢
              rcases hu with rfl | hu
              · exact Or.inr (hrunc.2.2 v he)
              · exact Or.inr (hrunc.1 u v hu he)
            · rintro ⟨c, hcw, hall⟩
              by_cases hbidc : bid ∈ c
              · obtain ⟨u, huc, hue⟩ := closed_walk_pred hcw hbidc
                have hub := hall u huc
                rw [black_exit_iff hrs2 h1 hvbid] at hub
                rcases hub with rfl | hub
                · have hblk : black st2 u := hrunc.2.2 u hue
                  exact hblk.2 hbidrs2
                · have hblk : black st2 bid := hrunc.1 u bid hub hue
                  exact hblk.2 hbidrs2
              · refine hrunc.2.1 ⟨c, hcw, fun x hx => ?_⟩
                have hxb := hall x hx
                rw [black_exit_iff hrs2 h1 hvbid] at hxb
                rcases hxb with rfl | hxb
                · exact absurd hx hbidc
                · exact hxb
        | valueError st2 =>
          rw [hr] at h
          cases h
        | fuelOut st2 =>
          rw [hr] at h
          cases h

end PlanningDoctor

namespace PlanningDoctor

theorem edge_source_is_bead {beads : List DBead} {x y : String} (h : edge beads x y) :
    ∃ b ∈ beads, b.id = x := by
  unfold edge blockers_of at h
  cases hf : beads.find? (fun b => b.id == x) with
  | none => rw [hf] at h; cases h
  | some b =>
    refine ⟨b, List.mem_of_find?_eq_some hf, ?_⟩
    simpa using List.find?_some hf

theorem closed_walk_succ {beads : List DBead} {c : List String}
    (hc : ClosedWalk beads c) {x : String} (hx : x ∈ c) :
    ∃ y, edge beads x y := by
  obtain ⟨hlen, hchain, hhl⟩ := hc
  obtain ⟨i, hi, hix⟩ := List.mem_iff_getElem.mp hx
  by_cases hil : i < c.length - 1
  · have hedge := List.chain'_iff_get.mp hchain i hil
    refine ⟨c.get ⟨i + 1, by omega⟩, ?_⟩
    have h3 : c.get ⟨i, by omega⟩ = x := by
      simpa [List.get_eq_getElem] using hix
    rw [← h3]
    exact hedge
  · have hieq : i = c.length - 1 := by omega
    have hhead : c.get ⟨0, by omega⟩ = x := by
      have h1 : c.head? = some x := by
        rw [hhl, List.getLast?_eq_getElem?,
          List.getElem?_eq_getElem (show c.length - 1 < c.length by omega)]
        subst hieq
        exact congrArg some hix
      rw [List.head?_eq_getElem?, List.getElem?_eq_getElem (show 0 < c.length by omega)] at h1
      have h2 := Option.some_inj.mp h1
      simpa [List.get_eq_getElem] using h2
    have hedge := List.chain'_iff_get.mp hchain 0 (by omega)
    refine ⟨c.get ⟨0 + 1, by omega⟩, ?_⟩
    rw [← hhead]
    exact hedge

theorem check_go_spec (beads : List DBead) (fuel : Nat)
    (hfuel : ∀ st, unvisited_count beads st < fuel) :
    ∀ (bs : List DBead) (count : Nat) (st : DfsState),
      (∀ b ∈ bs, b ∈ beads) →
      GoodSt st →
      sound_cycles beads st →
      (st.cycles = [] → st.rec_stack = []) →
      (st.cycles = [] → BlackClosed beads st) →
      (st.cycles = [] → NoBlackCycle beads st) →
      StateLe st (go_state_of (check_circular_go beads fuel bs count st))
      ∧ (∀ st', check_circular_go beads fuel bs count st ≠ .fuelOut st')
      ∧ (∀ st', check_circular_go beads fuel bs count st = .valueError st' →
          st'.cycles ≠ [] ∧ sound_cycles beads st')
      ∧ (∀ count' st', check_circular_go beads fuel bs count st = .done count' st' →
          sound_cycles beads st'
          ∧ (st'.cycles = [] → count' = count ∧ BlackClosed beads st'
              ∧ NoBlackCycle beads st' ∧ st'.rec_stack = []
              ∧ (∀ b ∈ bs, b.id ∈ st'.visited))) := by
  intro bs
  induction bs with
  | nil =>
    intro count st hbs hg hs h6 hbc hnb
    rw [check_circular_go]
    refine ⟨StateLe.refl st, ?_, ?_, ?_⟩
    · intro st' h
      cases h
    · intro st' h
      cases h
    · intro count' st' h
      cases h
      refine ⟨hs, fun hc => ⟨rfl, hbc hc, hnb hc, h6 hc, ?_⟩⟩
      intro b hb
      cases hb
  | cons b bs ih =>
    intro count st hbs hg hs h6 hbc hnb
    have hbmem : b ∈ beads := hbs b (List.mem_cons_self _ _)
    rw [check_circular_go]
    by_cases hv : b.id ∈ st.visited
    · rw [if_pos hv]
      have hrec := ih count st (fun x hx => hbs x (List.mem_cons_of_mem _ hx))
        hg hs h6 hbc hnb
      refine ⟨hrec.1, hrec.2.1, hrec.2.2.1, ?_⟩
      intro count' st' h
      have hdone := hrec.2.2.2 count' st' h
      refine ⟨hdone.1, fun hc => ?_⟩
      have hd2 := hdone.2 hc
      refine ⟨hd2.1, hd2.2.1, hd2.2.2.1, hd2.2.2.2.1, ?_⟩
      intro x hx
      rcases List.mem_cons.mp hx with rfl | hx
      · have hmono := hrec.1
        rw [h] at hmono
        exact hmono.1 x.id hv
      · exact hd2.2.2.2.2 x hx
    · rw [if_neg hv]
      have hU : b.id ∈ all_ids beads := mem_all_ids_of_bead hbmem
      have hchain : List.Chain' (edge beads) (([] : List String) ++ [b.id]) := by
        simp
      have hsound := has_cycle_sound beads fuel b.id [] st hchain hs
      have hmono1 := has_cycle_mono beads fuel b.id [] st
      have hshape := has_cycle_shape beads fuel b.id [] st hg
      cases hr : has_cycle beads fuel b.id [] st with
      | ok found st1 =>
        rw [hr] at hsound hmono1
        cases found with
        | true =>
          dsimp only
          have hne1 : st1.cycles ≠ [] := hshape.2.2 st1 hr
          have hg1 : GoodSt st1 := by
            have hgs := hshape.1
            rw [hr] at hgs
            exact hgs
          have hrec := ih (count + 1) st1 (fun x hx => hbs x (List.mem_cons_of_mem _ hx))
            hg1 hsound (fun hc => absurd hc hne1) (fun hc => absurd hc hne1)
            (fun hc => absurd hc hne1)
          refine ⟨hmono1.trans hrec.1, hrec.2.1, hrec.2.2.1, ?_⟩
          intro count' st' h
          have hdone := hrec.2.2.2 count' st' h
          refine ⟨hdone.1, fun hc => ?_⟩
          exfalso
          have hm := hrec.1
          rw [h] at hm
          simp only [go_state_of] at hm
          obtain ⟨new, hnew⟩ := hm.2.1
          rw [hc] at hnew
          exact hne1 (List.append_eq_nil.mp hnew.symm).1
        | false =>
          dsimp only
          have hsh := hshape.2.1 st1 hr
          have hg1 : GoodSt st1 := by
            have hgs := hshape.1
            rw [hr] at hgs
            exact hgs
          have hcomp := fun hc =>
            has_cycle_complete beads fuel b.id [] st hg h6 hbc hnb st1 hr hc
          have hrec := ih count st1 (fun x hx => hbs x (List.mem_cons_of_mem _ hx))
            hg1 hsound
            (fun hc => by rw [hsh.1, h6 (hsh.2.1 ▸ hc)])
            (fun hc => (hcomp (hsh.2.1 ▸ hc)).2.1)
            (fun hc => (hcomp (hsh.2.1 ▸ hc)).2.2)
          refine ⟨hmono1.trans hrec.1, hrec.2.1, hrec.2.2.1, ?_⟩
          intro count' st' h
          have hdone := hrec.2.2.2 count' st' h
          refine ⟨hdone.1, fun hc => ?_⟩
          have hd2 := hdone.2 hc
          refine ⟨hd2.1, hd2.2.1, hd2.2.2.1, hd2.2.2.2.1, ?_⟩
          intro x hx
          rcases List.mem_cons.mp hx with rfl | hx
          · have hm := hrec.1
            rw [h] at hm
            exact hm.1 x.id hsh.2.2
          · exact hd2.2.2.2.2 x hx
      | valueError st1 =>
        rw [hr] at hsound hmono1
        dsimp only
        have herr := has_cycle_error beads fuel b.id [] st hg h6 st1 hr
        refine ⟨hmono1, ?_, ?_, ?_⟩
        · intro st' h
          cases h
        · intro st' h
          cases h
          exact ⟨herr, hsound⟩
        · intro count' st' h
          cases h
      | fuelOut st1 =>
        exact absurd hr (has_cycle_no_fuelOut beads fuel b.id [] st hU (hfuel st) st1)

end PlanningDoctor

namespace PlanningDoctor

/-- C2: the cycle checker is sound and complete: every cycle it records
is a node sequence that, walked edge-by-edge along blocking edges,
returns to its starting node; on a blocking graph with no cycle the
check completes normally reporting zero circular dependencies; and on
any graph containing a blocking cycle the recorded circular issues are
nonempty. -/
theorem cycle_check_sound_complete (beads : List DBead) :
    (∀ c ∈ cycles_of (check_circular_dependencies beads), ClosedWalk beads c)
    ∧ (¬ HasCycle beads →
        ∃ st, check_circular_dependencies beads = .done 0 st ∧ st.cycles = [])
    ∧ (HasCycle beads → cycles_of (check_circular_dependencies beads) ≠ []) := by
  have hfuel : ∀ st, unvisited_count beads st < (all_ids beads).length + 1 := by
    intro st
    have h1 : unvisited_count beads st ≤ (all_ids beads).dedup.length :=
      (List.filter_sublist _).length_le
    have h2 : (all_ids beads).dedup.length ≤ (all_ids beads).length :=
      (List.dedup_sublist _).length_le
    omega
  have hg0 : GoodSt ⟨[], [], []⟩ :=
    ⟨fun x hx => absurd hx (List.not_mem_nil x), List.nodup_nil⟩
  have hs0 : sound_cycles beads ⟨[], [], []⟩ := fun c hc => absurd hc (List.not_mem_nil c)
  have hbc0 : BlackClosed beads ⟨[], [], []⟩ := by
    intro u v hu _
    exact absurd hu.1 (List.not_mem_nil u)
  have hnb0 : NoBlackCycle beads ⟨[], [], []⟩ := by
    rintro ⟨c, hcw, hall⟩
    obtain ⟨hlen, _, _⟩ := hcw
    cases c with
    | nil => simp at hlen
    | cons a l => exact absurd (hall a (List.mem_cons_self a l)).1 (List.not_mem_nil a)
  have hspec := check_go_spec beads ((all_ids beads).length + 1) hfuel beads 0 ⟨[], [], []⟩
    (fun _ hb => hb) hg0 hs0 (fun _ => rfl) (fun _ => hbc0) (fun _ => hnb0)
  have hdef : check_circular_dependencies beads =
      check_circular_go beads ((all_ids beads).length + 1) beads 0 ⟨[], [], []⟩ := rfl
  cases hr : check_circular_go beads ((all_ids beads).length + 1) beads 0 ⟨[], [], []⟩ with
  | done count st =>
    have hdone := hspec.2.2.2 count st hr
    refine ⟨?_, ?_, ?_⟩
    · rw [hdef, hr]
      exact hdone.1
    · intro hnc
      have hcyc : st.cycles = [] := by
        by_contra hne
        cases hcv : st.cycles with
        | nil => exact hne hcv
        | cons c cs => exact hnc ⟨c, hdone.1 c (hcv ▸ List.mem_cons_self c cs)⟩
      refine ⟨st, ?_, hcyc⟩
      rw [hdef, hr, (hdone.2 hcyc).1]
    · intro hhc
      obtain ⟨c, hcw⟩ := hhc
      rw [hdef, hr]
      intro hcyc
      have hd2 := hdone.2 hcyc
      apply hd2.2.2.1
      refine ⟨c, hcw, ?_⟩
      intro x hx
      obtain ⟨y, hxy⟩ := closed_walk_succ hcw hx
      obtain ⟨bx, hbx, hbxid⟩ := edge_source_is_bead hxy
      have hxv : x ∈ st.visited := hbxid ▸ hd2.2.2.2.2 bx hbx
      refine ⟨hxv, ?_⟩
      rw [hd2.2.2.2.1]
      exact List.not_mem_nil x
  | valueError st =>
    have herr := hspec.2.2.1 st hr
    refine ⟨?_, ?_, ?_⟩
    · rw [hdef, hr]
      exact herr.2
    · intro hnc
      exfalso
      cases hcv : st.cycles with
      | nil => exact herr.1 hcv
      | cons c cs => exact hnc ⟨c, herr.2 c (hcv ▸ List.mem_cons_self c cs)⟩
    · intro _
      rw [hdef, hr]
      exact herr.1
  | fuelOut st =>
    exact absurd hr (hspec.2.1 st)

/-- Witness for C2 at the two-bead cycle A blocking on B blocking on A:
the graph has a closed walk, and the check records at least one cycle
(concretely, exactly the sequence A, B, A). -/
theorem cycle_check_sound_complete_witness :
    HasCycle Examples.cyc_beads
    ∧ cycles_of (check_circular_dependencies Examples.cyc_beads) ≠ []
    ∧ cycles_of (check_circular_dependencies Examples.cyc_beads) = [["A", "B", "A"]] :=
  have hchain : List.Chain' (edge Examples.cyc_beads) ["A", "B", "A"] := by
    rw [List.chain'_cons, List.chain'_cons]
    exact ⟨by decide, by decide, List.chain'_singleton _⟩
  have hc : HasCycle Examples.cyc_beads :=
    ⟨["A", "B", "A"], by decide, hchain, by decide⟩
  ⟨hc, (cycle_check_sound_complete Examples.cyc_beads).2.2 hc, by decide⟩

end PlanningDoctor
